import Mathlib

/-!
Formal model of the core of the `docs_updater` repository
(`backend/src/app/services/document_processor.py`,
`backend/src/app/services/diff_service.py`,
`backend/src/app/services/redis_embedding_service.py`).

Python strings are modelled as `List Char` (`Str`); Python lists as `List`;
Python dicts as insertion-ordered association lists; numpy float vectors as
`List ℚ` (floating-point rounding is abstracted away, which every claim about
numeric values allows "up to floating-point serialization precision");
`np.linalg.norm` is irrational in general, so functions that need it take the
norm function as an explicit parameter `nrm`; witnesses instantiate it with
`ratNorm`, which agrees with the Euclidean norm on vectors whose squared sum
is a perfect rational square.
-/

/-- Python `str` modelled as a list of characters. -/

abbrev Str := List Char

/-- Convert a Lean string literal to the model type. -/

def strOf (s : String) : Str := s.data

/-- Python `str.strip()`: drop leading and trailing whitespace. -/

def pyStrip (s : Str) : Str :=
  ((s.dropWhile Char.isWhitespace).reverse.dropWhile Char.isWhitespace).reverse

/-- Python `str.lower()` (ASCII model of Unicode lowering). -/

def pyLower (s : Str) : Str := s.map Char.toLower

/-- Word accumulator for `pyWords`: `cur` is the reversed current word. -/

def pyWordsAux : Str → Str → List Str
  | cur, [] => if cur = [] then [] else [cur.reverse]
  | cur, c :: rest =>
    if c.isWhitespace then
      if cur = [] then pyWordsAux [] rest else cur.reverse :: pyWordsAux [] rest
    else pyWordsAux (c :: cur) rest

/-- Python `str.split()` with no separator: whitespace-delimited words,
empty chunks discarded. -/

def pyWords (s : Str) : List Str := pyWordsAux [] s

/-- Python `content.split('\n')` (used by `_parse_markdown_sections`). -/

def splitLines (s : Str) : List Str := s.splitOn '\n'

/-- Python `'\n'.join(parts)`. -/

def joinLines (parts : List Str) : Str := List.intercalate ['\n'] parts

/-- Decimal digits of a natural number (model of Python string formatting
of `line_start` inside `_generate_section_id`). -/

def natDigits (n : Nat) : Str := (Nat.repr n).data

/-- The `DocumentType` from `models/document.py`: `MARKDOWN` or `CODE` are the
only values the processor assigns. -/

inductive DocumentType where
  | markdown
  | code
deriving DecidableEq

/-- The `DocumentSection` (the fields the services read or write).
`word_count`/`char_count` model the metadata entries of the same names. -/

structure DocumentSection where
  id : Str
  title : Str
  content : Str
  file_path : Str
  line_start : Nat
  line_end : Nat
  section_type : DocumentType
  header_level : Nat
  word_count : Nat
  char_count : Nat
deriving DecidableEq

/-- The `_generate_section_id`: md5 of `f"{file_path}:{title}:{line_start}"`.
The md5 hash is modelled as the identity on its input string (its only role
in the program is to be a deterministic function of that string). -/

def generate_section_id (title : Str) (file_path : Str) (line_start : Nat) : Str :=
  file_path ++ [':'] ++ title ++ [':'] ++ natDigits line_start

/-- The `_create_section`: builds a `DocumentSection`, stripping the content and
classifying it as code when it contains a fenced-code marker. -/

def create_section (title : Str) (content : Str) (file_path : Str)
    (line_start line_end : Nat) (header_level : Nat) : DocumentSection :=
  let c := pyStrip content
  { id := generate_section_id title file_path line_start
    title := title
    content := c
    file_path := file_path
    line_start := line_start
    line_end := line_end
    section_type := if strOf "```" <:+: c then DocumentType.code else DocumentType.markdown
    header_level := header_level
    word_count := (pyWords c).length
    char_count := c.length }

/-- The `_create_default_section`: the "Main Content" section spanning the whole
document when no headers are found. -/

def create_default_section (content : Str) (file_path : Str) : DocumentSection :=
  create_section (strOf "Main Content") content file_path 0
    ((splitLines content).length - 1) 1

/-- Model of `re.match(r'^(#+)\s*(.+)', s)` followed by
`(len(group(1)), group(2).strip())`, for `s` the stripped line.
The regex backtracks on an all-`'#'` string of length ≥ 2, giving up the
last `'#'` to `(.+)`; a lone `"#"` does not match. -/

def headerMatch (s : Str) : Option (Nat × Str) :=
  let k := (s.takeWhile (· == '#')).length
  if k = 0 then none
  else
    let r := s.drop k
    if r = [] then
      if 2 ≤ k then some (k - 1, ['#']) else none
    else
      some (k, pyStrip r)

/-- Python truthiness of the `current_section` optional string
(`if current_section:`): `None` and `""` are falsy. -/

def pyTruthy : Option Str → Bool
  | none => false
  | some t => t ≠ []

/-- The mutable locals of `_parse_sections_from_lines`. -/

structure ParseState where
  sections : List DocumentSection
  current_section : Option Str
  section_content : List Str
  line_start : Nat
  header_level : Nat

/-- Initial locals of `_parse_sections_from_lines`. -/

def initParseState : ParseState :=
  { sections := [], current_section := none, section_content := []
    line_start := 0, header_level := 0 }

/-- One iteration of the `for i, line in enumerate(lines)` loop of
`_parse_sections_from_lines`. -/

def parseStep (fp : Str) (i : Nat) (line : Str) (st : ParseState) : ParseState :=
  let s := pyStrip line
  if strOf "#" <+: s then
    let sections' :=
      if pyTruthy st.current_section then
        st.sections ++ [create_section (st.current_section.getD [])
          (joinLines st.section_content) fp st.line_start (i - 1) st.header_level]
      else st.sections
    match headerMatch s with
    | some (lvl, title) =>
      { sections := sections', current_section := some title
        section_content := [], line_start := i, header_level := lvl }
    | none =>
      { st with sections := sections' }
  else
    { st with section_content := st.section_content ++ [line] }

/-- The loop of `_parse_sections_from_lines`, starting at line index `i`. -/

def parseGo (fp : Str) (i : Nat) (lines : List Str) (st : ParseState) : ParseState :=
  match lines with
  | [] => st
  | l :: rest => parseGo fp (i + 1) rest (parseStep fp i l st)

/-- The `_parse_sections_from_lines`: run the loop, then close the last open
section with the document's final line. -/

def parse_sections_from_lines (lines : List Str) (fp : Str) : List DocumentSection :=
  let st := parseGo fp 0 lines initParseState
  if pyTruthy st.current_section then
    st.sections ++ [create_section (st.current_section.getD [])
      (joinLines st.section_content) fp st.line_start (lines.length - 1) st.header_level]
  else st.sections

/-- The `_parse_markdown_sections`: split on newlines, parse, and fall back to
the single default section when nothing was produced. -/

def parse_markdown_sections (content : Str) (fp : Str) : List DocumentSection :=
  let sections := parse_sections_from_lines (splitLines content) fp
  if sections = [] then [create_default_section content fp] else sections

/-! ## Keyword fallback scorer (`_keyword_search_sections`) -/

/-- The `agents_terms` bonus table of `_keyword_search_sections`
(a Python dict, iterated in insertion order; the bonuses are summed, so the
order is irrelevant). -/

def agents_terms : List (Str × Nat) :=
  [(strOf "agent", 5), (strOf "handoff", 5), (strOf "guardrail", 5),
   (strOf "tool", 3), (strOf "runner", 3), (strOf "instruction", 2),
   (strOf "function", 2)]

/-- The score `_keyword_search_sections` accumulates for one section:
per-token title/body substring bonuses, whole-query substring bonuses, and
the domain-term bonus table (Python `in` on strings is substring
containment, modelled by `<:+:`). -/

def keyword_score (query : Str) (s : DocumentSection) : Nat :=
  let query_lower := pyLower query
  let query_terms := pyWords query_lower
  let title_lower := pyLower s.title
  let content_lower := pyLower s.content
  (query_terms.map (fun term =>
      (if term <:+: title_lower then 10 else 0) +
      (if term <:+: content_lower then 1 else 0))).sum
  + (if query_lower <:+: title_lower then 20 else 0)
  + (if query_lower <:+: content_lower then 5 else 0)
  + (agents_terms.map (fun p => if p.1 <:+: content_lower then p.2 else 0)).sum

/-- One iteration of the scoring loop: keep a section (with its score)
exactly when its score is strictly positive. -/

def keyword_sel (query : Str) (s : DocumentSection) :
    Option (DocumentSection × Nat) :=
  if 0 < keyword_score query s then some (s, keyword_score query s) else none

/-- The `_keyword_search_sections`: positively scored sections in store order,
stably sorted by descending score (Python `list.sort` with `reverse=True` is
stable; `insertionSort` with `b.2 ≤ a.2` inserts each earlier element before
the equal-scored later ones, which is the same stable descending order),
truncated to `limit`. -/

def keyword_search_sections (sections : List DocumentSection) (query : Str)
    (limit : Nat) : List DocumentSection :=
  let scored := sections.filterMap (keyword_sel query)
  let sorted := List.insertionSort (fun a b => b.2 ≤ a.2) scored
  (sorted.take limit).map Prod.fst

/-! ## Embedding cache, matrix and semantic search -/

/-- A numpy float vector, with exact rationals in place of floats. -/

abbrev Vec := List ℚ

/-- The `np.dot` of two vectors. -/

def dotProduct (a b : Vec) : ℚ := (List.zipWith (· * ·) a b).sum

/-- Sum of squares of a vector's entries (`np.linalg.norm` squared). -/

def sumSq (v : Vec) : ℚ := (v.map (fun x => x * x)).sum

/-- A rational square root that is exact on perfect rational squares (and
junk elsewhere); concrete witnesses only ever apply it to perfect squares,
where it agrees with the Euclidean norm. -/

def ratSqrt (q : ℚ) : ℚ := (Nat.sqrt q.num.toNat : ℚ) / (Nat.sqrt q.den : ℚ)

/-- The `np.linalg.norm` for witness vectors whose squared sum is a perfect
rational square. -/

def ratNorm (v : Vec) : ℚ := ratSqrt (sumSq v)

/-- The mutable fields of `DocumentProcessor` that the search and indexing
paths touch: the section store, the embeddings dict, the dense matrix with
its parallel id list and dirty flag, whether an OpenAI client exists, and
the query-embedding cache. -/

structure DPState where
  sections : List DocumentSection
  embeddings : List (Str × Vec)
  embedding_matrix : Option (List Vec)
  section_ids_list : List Str
  matrix_dirty : Bool
  client_available : Bool
  query_embedding_cache : List (Str × Vec)

/-- Association-list lookup (Python dict read `m[k]` / `m.get(k)`). -/

def alist_lookup (k : Str) : List (Str × Vec) → Option Vec
  | [] => none
  | p :: rest => if p.1 = k then some p.2 else alist_lookup k rest

/-- The `self.sections.get(section_id)`: the store is keyed by `section.id`, so
lookup is search by id. -/

def sections_get (sections : List DocumentSection) (sid : Str) :
    Option DocumentSection :=
  sections.find? (fun s => decide (s.id = sid))

/-- The `_build_embedding_matrix`: no-op when there are no embeddings or the
matrix is clean; otherwise rebuild the id list and the row-normalized
matrix (`row / np.maximum(norm(row), 1e-8)`) and clear the dirty flag. -/

def build_embedding_matrix (nrm : Vec → ℚ) (st : DPState) : DPState :=
  if st.embeddings = [] ∨ st.matrix_dirty = false then st
  else
    let ids := st.embeddings.map Prod.fst
    let embeddings_list := ids.map (fun sid => (alist_lookup sid st.embeddings).getD [])
    let rows := embeddings_list.map (fun v =>
      let n := max (nrm v) (1 / 100000000)
      v.map (fun x => x / n))
    { st with section_ids_list := ids, embedding_matrix := some rows,
              matrix_dirty := false }

/-- The `np.argsort(keys)[::-1]`: indices of `keys` sorted by ascending value,
reversed (numpy's sort is unstable, so the order among equal keys is
unspecified; this model fixes one valid order). -/

def argsortDesc (keys : List ℚ) : List Nat :=
  (List.insertionSort (fun i j => keys.getD i 0 ≤ keys.getD j 0)
    (List.range keys.length)).reverse

/-- The `np.dot(matrix, query_normalized)`: one cosine similarity per row. -/

def simsOf (rows : List Vec) (qn : Vec) : List ℚ := rows.map (fun r => dotProduct r qn)

/-- One step of the selection loop of `_fast_embedding_search`: keep index
`idx` when its similarity exceeds the 0.1 threshold and its section id is
present in the store.  The surviving index is carried next to its section so
that the similarity each result was admitted with stays visible. -/

def fast_sel (sections : List DocumentSection) (sims : List ℚ) (ids : List Str)
    (idx : Nat) : Option (Nat × DocumentSection) :=
  if 1/10 < sims.getD idx 0 then
    match sections_get sections (ids.getD idx []) with
    | some s => some (idx, s)
    | none => none
  else none

/-- The selection loop of `_fast_embedding_search` over the top indices. -/

def fast_pairs (sections : List DocumentSection) (rows : List Vec)
    (ids : List Str) (qn : Vec) (limit : Nat) : List (Nat × DocumentSection) :=
  let sims := simsOf rows qn
  ((argsortDesc sims).take limit).filterMap (fast_sel sections sims ids)

/-- The state `_fast_embedding_search` works on: rebuilt when the dirty
flag is set, unchanged otherwise. -/

def after_build (nrm : Vec → ℚ) (st : DPState) : DPState :=
  if st.matrix_dirty then build_embedding_matrix nrm st else st

/-- The `_fast_embedding_search`: rebuild the matrix if dirty, return empty when
there is no matrix, no ids, or the query has zero norm, otherwise select by
normalized similarity. -/

def fast_embedding_search (nrm : Vec → ℚ) (st : DPState) (query_emb : Vec)
    (limit : Nat) : List DocumentSection :=
  let st' := after_build nrm st
  match st'.embedding_matrix with
  | none => []
  | some rows =>
    if st'.section_ids_list.length = 0 then []
    else if nrm query_emb = 0 then []
    else
      let qn := query_emb.map (fun x => x / nrm query_emb)
      (fast_pairs st'.sections rows st'.section_ids_list qn limit).map Prod.snd

/-- The `_embed_text`: `None` without a client; otherwise the provider is called
on the first 1000 characters and may fail (`none` models the caught
exception as well as a missing client). -/

def embed_text (oracle : Str → Option Vec) (client_available : Bool)
    (text : Str) : Option Vec :=
  if client_available then oracle (text.take 1000) else none

/-- The `_get_cached_query_embedding`: cache hit by query (md5 of the query is
modelled by the query itself), else embed and cache, evicting the oldest 50
entries when the cache exceeds 100.  Returns the embedding and the updated
cache. -/

def get_cached_query_embedding (oracle : Str → Option Vec) (st : DPState)
    (query : Str) : Option Vec × List (Str × Vec) :=
  match alist_lookup query st.query_embedding_cache with
  | some v => (some v, st.query_embedding_cache)
  | none =>
    match embed_text oracle st.client_available query with
    | some e =>
      let cache' := st.query_embedding_cache ++ [(query, e)]
      (some e, if 100 < cache'.length then cache'.drop 50 else cache')
    | none => (none, st.query_embedding_cache)

/-- The top-up loop of `search_sections`: append keyword results whose id is
not among `existing_ids` (a set computed once, before the loop), stopping as
soon as `limit` results are reached. -/

def top_up (results : List DocumentSection) (existing_ids : List Str)
    (keyword_results : List DocumentSection) (limit : Nat) : List DocumentSection :=
  match keyword_results with
  | [] => results
  | k :: rest =>
    if k.id ∈ existing_ids then top_up results existing_ids rest limit
    else
      let results' := results ++ [k]
      if limit ≤ results'.length then results'
      else top_up results' existing_ids rest limit

/-- The `search_sections`: keyword-only without embeddings or when the query
embedding is absent; otherwise semantic search topped up by a keyword call
that only requests `limit - len(results)` sections. -/

def search_sections (nrm : Vec → ℚ) (oracle : Str → Option Vec) (st : DPState)
    (query : Str) (limit : Nat) : List DocumentSection :=
  if st.embeddings = [] then keyword_search_sections st.sections query limit
  else
    match (get_cached_query_embedding oracle st query).1 with
    | none => keyword_search_sections st.sections query limit
    | some query_emb =>
      let results := fast_embedding_search nrm st query_emb limit
      let results' :=
        if results.length < limit then
          top_up results (results.map (fun s => s.id))
            (keyword_search_sections st.sections query (limit - results.length))
            limit
        else results
      results'.take limit

/-! ## Embedding generation (`generate_section_embeddings`) -/

/-- Python dict assignment `m[k] = v`: overwrite in place or append. -/

def dict_insert (m : List (Str × Vec)) (k : Str) (v : Vec) : List (Str × Vec) :=
  if k ∈ m.map Prod.fst then
    m.map (fun p => if p.1 = k then (k, v) else p)
  else m ++ [(k, v)]

/-- Store one batch response: `self.embeddings[ids[idx]] = vectors[idx]`
(the provider returns one vector per input, modelled by `zip`). -/

def store_batch (m : List (Str × Vec)) (ids : List Str) (vecs : List Vec) :
    List (Str × Vec) :=
  (List.zip ids vecs).foldl (fun acc p => dict_insert acc p.1 p.2) m

/-- The `range(0, len(l), n)` batching.  (`n = 0` raises in Python and is never
used; the model returns no batches there.) -/

def chunksOfAux (n : Nat) : Nat → List α → List (List α)
  | 0, _ => []
  | _, [] => []
  | fuel + 1, x :: xs => (x :: xs).take n :: chunksOfAux n fuel ((x :: xs).drop n)

def chunksOf (n : Nat) (l : List α) : List (List α) :=
  if n = 0 then [] else chunksOfAux n l.length l

/-- The batch loop of `generate_section_embeddings`: a failed batch returns
at once, keeping the vectors already stored but leaving the dirty flag as it
was; when all batches succeed the dirty flag is set after the loop. -/

def generate_go (oracle : List Str → Option (List Vec)) (st : DPState)
    (acc : List (Str × Vec)) (batches : List (List (Str × Str))) : DPState :=
  match batches with
  | [] => { st with embeddings := acc, matrix_dirty := true }
  | batch :: rest =>
    match oracle (batch.map Prod.snd) with
    | some vecs => generate_go oracle st (store_batch acc (batch.map Prod.fst) vecs) rest
    | none => { st with embeddings := acc }

/-- The `generate_section_embeddings`: skip without a client; embed, in batches,
the sections that have content and no stored vector (content truncated to
2000 characters). -/

def generate_section_embeddings (oracle : List Str → Option (List Vec))
    (st : DPState) (batch_size : Nat) : DPState :=
  if st.client_available = false then st
  else
    let to_embed := st.sections.filterMap (fun s =>
      if s.id ∉ st.embeddings.map Prod.fst ∧ s.content ≠ [] ∧
          pyStrip s.content ≠ []
      then some (s.id, s.content.take 2000) else none)
    if to_embed = [] then st
    else generate_go oracle st st.embeddings (chunksOf batch_size to_embed)

/-! ## Persistence: pickle file and Redis backing -/

/-- The `save_embeddings`: pickle `{id: vector.tolist()}`.  `tolist` converts a
numpy array to a Python list of floats; on the model's exact rationals it is
the identity (the claim tolerates exactly this serialization rounding). -/

def save_embeddings (embeddings : List (Str × Vec)) : List (Str × List ℚ) :=
  embeddings.map (fun kv => (kv.1, kv.2))

/-- The `load_embeddings`: unpickle and rebuild `{id: np.array(v)}`; `np.array`
on a list of floats is again the identity on the model values. -/

def load_embeddings (dump : List (Str × List ℚ)) : List (Str × Vec) :=
  dump.map (fun kv => (kv.1, kv.2))

/-- Redis key `f"embedding:{section_id}"`. -/

def redis_embedding_key (sid : Str) : Str := strOf "embedding:" ++ sid

/-- The normalization `store_embedding` applies before writing: cast to
float32 (identity on model rationals) and divide by the norm when it is
positive. -/

def redis_normalize (nrm : Vec → ℚ) (v : Vec) : Vec :=
  if 0 < nrm v then v.map (fun x => x / nrm v) else v

/-- The `RedisEmbeddingService.store_embedding`: the store is modelled as the
key/value map the pipeline writes (TTL and the `sections:index` set are not
read back by `get_embedding`). -/

def store_embedding (nrm : Vec → ℚ) (store : List (Str × Vec)) (sid : Str)
    (v : Vec) : List (Str × Vec) :=
  dict_insert store (redis_embedding_key sid) (redis_normalize nrm v)

/-- The `RedisEmbeddingService.get_embedding`: read the stored bytes back
(`frombuffer` of `tobytes` is the identity on the stored values). -/

def get_embedding (store : List (Str × Vec)) (sid : Str) : Option Vec :=
  alist_lookup (redis_embedding_key sid) store

/-! ## Diff service (`diff_service.py`) -/

/-- The `DiffHunk` from `models/suggestion.py`: unified-diff hunk header numbers
plus the old-side and new-side line lists. -/

structure DiffHunk where
  old_start : Nat
  old_count : Nat
  new_start : Nat
  new_count : Nat
  old_lines : List Str
  new_lines : List Str
deriving DecidableEq

/-- Decimal value of a digit run. -/

def digitsToNat (ds : Str) : Nat :=
  ds.foldl (fun acc c => acc * 10 + (c.toNat - 48)) 0

/-- Parse `(\d+),?(\d*)` at the front of `s`: the leading digit run, an
optional comma, a second (possibly empty) digit run defaulting to 1, and
the rest of the string.  `none` when no leading digit exists.  Greedy digit
runs followed by the fixed literals of the hunk-header regex admit no
backtracking, so this deterministic reading equals the regex's. -/

def parseNumPair (s : Str) : Option (Nat × Nat × Str) :=
  let d1 := s.takeWhile Char.isDigit
  if d1 = [] then none
  else
    let r1 := s.drop d1.length
    match r1 with
    | ',' :: r2 =>
      let d2 := r2.takeWhile Char.isDigit
      some (digitsToNat d1, if d2 = [] then 1 else digitsToNat d2, r2.drop d2.length)
    | _ => some (digitsToNat d1, 1, r1)

/-- The `_parse_hunk_header`: `re.match(r'@@ -(\d+),?(\d*) \+(\d+),?(\d*) @@', header)`
(anchored at the start, arbitrary trailing text).  `none` models the
`ValueError` raised when the match fails. -/

def parse_hunk_header (header : Str) : Option DiffHunk :=
  match header with
  | '@' :: '@' :: ' ' :: '-' :: rest =>
    match parseNumPair rest with
    | some (old_start, old_count, r1) =>
      match r1 with
      | ' ' :: '+' :: r2 =>
        match parseNumPair r2 with
        | some (new_start, new_count, r3) =>
          match r3 with
          | ' ' :: '@' :: '@' :: _ =>
            some { old_start := old_start, old_count := old_count,
                   new_start := new_start, new_count := new_count,
                   old_lines := [], new_lines := [] }
          | _ => none
        | none => none
      | _ => none
    | none => none
  | _ => none

/-- The `_add_line_to_hunk`: `-` lines go to the old side, `+` lines to the new
side, space-prefixed context lines to both; anything else is dropped. -/

def add_line_to_hunk (h : DiffHunk) (line : Str) : DiffHunk :=
  match line with
  | '-' :: rest => { h with old_lines := h.old_lines ++ [rest] }
  | '+' :: rest => { h with new_lines := h.new_lines ++ [rest] }
  | ' ' :: rest => { h with old_lines := h.old_lines ++ [rest],
                            new_lines := h.new_lines ++ [rest] }
  | _ => h

/-- The loop of `_process_diff_lines`: an `@@` line finalizes the open hunk
and opens a new one (or fails, modelling the uncaught `ValueError`); other
lines are added to the open hunk and ignored when none is open. -/

def process_go (lines : List Str) (hunks : List DiffHunk)
    (current : Option DiffHunk) : Option (List DiffHunk) :=
  match lines with
  | [] => some (hunks ++ current.toList)
  | l :: rest =>
    if strOf "@@" <+: l then
      match parse_hunk_header l with
      | none => none
      | some h => process_go rest (hunks ++ current.toList) (some h)
    else
      match current with
      | none => process_go rest hunks none
      | some h => process_go rest hunks (some (add_line_to_hunk h l))

/-- The `_process_diff_lines`. -/

def process_diff_lines (lines : List Str) : Option (List DiffHunk) :=
  process_go lines [] none

/-- Python `str.splitlines()` (over the line boundaries `\r\n`, `\r`, `\n`;
a trailing boundary produces no extra empty line). -/

def py_splitlines (s : Str) : List Str :=
  match s with
  | [] => []
  | '\r' :: '\n' :: rest => [] :: py_splitlines rest
  | '\r' :: rest => [] :: py_splitlines rest
  | '\n' :: rest => [] :: py_splitlines rest
  | c :: rest =>
    match py_splitlines rest with
    | [] => [[c]]
    | l :: ls => (c :: l) :: ls

/-- The `generate_diff_hunks`: split both contents into lines, run
`difflib.unified_diff` — an external stdlib collaborator, passed in as
`udiff` — and group the resulting stream into hunks. -/

def generate_diff_hunks (udiff : List Str → List Str → Nat → List Str)
    (original suggested : Str) (context_lines : Nat) : Option (List DiffHunk) :=
  process_diff_lines (udiff (py_splitlines original) (py_splitlines suggested)
    context_lines)

/-- Modelled from the spec: `difflib.unified_diff` (Python stdlib, not part
of this repository's sources) emits a unified-diff token stream whose every
`@@` header line carries `old_start,old_count +new_start,new_count` with the
single-line-count shorthand (an omitted count defaults to 1) — that is,
every `@@` line is accepted by `parse_hunk_header` — and emits an empty
stream when the two line sequences are equal. -/

def unified_diff_stream_ok (stream : List Str) : Prop :=
  ∀ l ∈ stream, strOf "@@" <+: l → (parse_hunk_header l).isSome

/-- The `get_diff_stats` result. -/

structure DiffStats where
  additions : Nat
  deletions : Nat
  changes : Nat
deriving DecidableEq

/-- The `get_diff_stats`: per hunk, count new-side lines absent (as content)
from that hunk's old side, and symmetrically; `changes` is the hunk
count. -/

def get_diff_stats (hunks : List DiffHunk) : DiffStats :=
  { additions := (hunks.map (fun h =>
      (h.new_lines.filter (fun l => decide (l ∉ h.old_lines))).length)).sum
    deletions := (hunks.map (fun h =>
      (h.old_lines.filter (fun l => decide (l ∉ h.new_lines))).length)).sum
    changes := hunks.length }

/-! ## C4: the batch-failure run of `generate_section_embeddings` -/

def c4sec1 : DocumentSection :=
  ⟨strOf "id1", strOf "T1", strOf "body one", strOf "f", 0, 1,
   DocumentType.markdown, 1, 2, 8⟩

def c4sec2 : DocumentSection :=
  ⟨strOf "id2", strOf "T2", strOf "body two", strOf "f", 2, 3,
   DocumentType.markdown, 1, 2, 8⟩

/-- A processor state with two unembedded sections, a clean matrix flag
(as after a build), and an available client. -/

def c4state : DPState := ⟨[c4sec1, c4sec2], [], none, [], false, true, []⟩

/-- A provider that embeds the first batch and fails on the second. -/

def c4oracle : List Str → Option (List Vec) :=
  fun texts => if texts = [strOf "body one"] then some [[1]] else none

/-- A state with embeddings present but no client available. -/

def c6state : DPState := ⟨[], [(strOf "x", [1])], none, [], true, false, []⟩

/-- Title-query section for the C7 counterexample. -/

def c7A : DocumentSection :=
  ⟨strOf "A", strOf "aa bb", strOf "", strOf "f", 0, 0,
   DocumentType.markdown, 1, 2, 5⟩

/-- Body-only section for the C7 counterexample: the query appears only in
the body, but its tokens appear in the title and the body carries three
domain-bonus terms. -/

def c7B : DocumentSection :=
  ⟨strOf "B", strOf "bb aa", strOf "aa bb agent handoff guardrail", strOf "f",
   1, 1, DocumentType.markdown, 1, 5, 29⟩

/-- Title-query section for the C7 witness. -/

def c7wA : DocumentSection :=
  ⟨strOf "A", strOf "cc", strOf "", strOf "f", 0, 0,
   DocumentType.markdown, 1, 1, 2⟩

/-- Clean body-only section for the C7 witness. -/

def c7wB : DocumentSection :=
  ⟨strOf "B", strOf "zz", strOf "cc", strOf "f", 1, 1,
   DocumentType.markdown, 1, 1, 2⟩

/-! ## C2 counterexample state -/

/-- Section "A": scores 36 for query "alpha", and carries the only cached
embedding. -/

def c2A : DocumentSection :=
  ⟨strOf "A", strOf "alpha", strOf "alpha", strOf "f", 0, 0,
   DocumentType.markdown, 1, 1, 5⟩

/-- Section "B": scores 6 for query "alpha" (body match only). -/

def c2B : DocumentSection :=
  ⟨strOf "B", strOf "beta", strOf "alpha", strOf "f", 1, 1,
   DocumentType.markdown, 1, 1, 5⟩

/-- State with both sections in the store but only "A" embedded; the dirty
flag is set so the search builds the matrix. -/

def c2state : DPState :=
  ⟨[c2A, c2B], [(strOf "A", [1])], none, [], true, true, []⟩

/-- The state after the matrix build on `c2state`. -/

def c2built : DPState :=
  ⟨[c2A, c2B], [(strOf "A", [1])], some [[1]], [strOf "A"], false, true, []⟩

/-- A provider that answers every query with the unit vector `[1]`. -/

def c2oracle : Str → Option Vec := fun _ => some [1]

/-- A concrete difflib-shaped stream for the C10 witness. -/

def c10udiff : List Str → List Str → Nat → List Str :=
  fun a b _ =>
    if a = b then []
    else [strOf "--- ", strOf "+++ ", strOf "@@ -1 +1 @@", strOf "-a", strOf "+b"]

/-- The `tiles lo secs hi`: the sections' line ranges cover exactly
`[lo, hi)`, consecutively and in order. -/

def tiles : Nat → List DocumentSection → Nat → Prop
  | lo, [], hi => lo = hi
  | lo, s :: rest, hi => s.line_start = lo ∧ lo ≤ s.line_end ∧ tiles (s.line_end + 1) rest hi

/-- The loop invariant between the first header and the end of input: an
open nonempty title, a start line inside the scanned range, and the closed
sections tiling `[i0, line_start)`. -/

def ParseInv (i0 i : Nat) (st : ParseState) : Prop :=
  ∃ t, st.current_section = some t ∧ t ≠ [] ∧ i0 ≤ st.line_start ∧
    st.line_start < i ∧ tiles i0 st.sections st.line_start

/-! ## Theorems -/

/-- The `ratNorm` agrees with the Euclidean norm on `[3, 4]`. -/

theorem ratNorm_three_four : ratNorm [3, 4] = 5 := by
  have h : sumSq [3, 4] = 25 := by norm_num [sumSq]
  have h25 : ((25 : ℚ).num.toNat) = 25 := rfl
  have h25d : ((25 : ℚ).den) = 1 := by norm_num
  rw [ratNorm, h, ratSqrt, h25, h25d]
  rw [show (25 : ℕ) = 5 * 5 from rfl, Nat.sqrt_eq]
  norm_num

/-- The `ratNorm` agrees with the Euclidean norm on `[1]`. -/

theorem ratNorm_one : ratNorm [1] = 1 := by
  have h : sumSq [1] = 1 := by norm_num [sumSq]
  rw [ratNorm, h, ratSqrt]
  norm_num [Nat.sqrt_one]

/-- The `ratNorm` agrees with the Euclidean norm on the zero vector `[0]`. -/

theorem ratNorm_zero_vec : ratNorm [0] = 0 := by
  have h : sumSq [0] = 0 := by norm_num [sumSq]
  rw [ratNorm, h, ratSqrt]
  norm_num [Nat.sqrt_zero, Nat.sqrt_one]

/-! ## Dictionary lemmas -/

/-- Overwriting an existing key: the lookup of `k` in the rewritten map
finds the new value. -/

theorem lookup_map_overwrite (m : List (Str × Vec)) (k : Str) (v : Vec)
    (hc : k ∈ m.map Prod.fst) :
    alist_lookup k (m.map (fun p => if p.1 = k then (k, v) else p)) = some v := by
  induction m with
  | nil => simp at hc
  | cons p m ih =>
    simp only [List.map_cons]
    by_cases hpk : p.1 = k
    · rw [if_pos hpk]
      simp [alist_lookup]
    · rw [if_neg hpk]
      have hc' : k ∈ m.map Prod.fst := by
        simp only [List.map_cons, List.mem_cons] at hc
        rcases hc with h | h
        · exact absurd h.symm hpk
        · exact h
      simp only [alist_lookup, if_neg hpk]
      exact ih hc'

/-- Appending a fresh key: the lookup of `k` finds the appended value. -/

theorem lookup_append_new (m : List (Str × Vec)) (k : Str) (v : Vec)
    (hc : k ∉ m.map Prod.fst) :
    alist_lookup k (m ++ [(k, v)]) = some v := by
  induction m with
  | nil => simp [alist_lookup]
  | cons p m ih =>
    have h1 : ¬ p.1 = k := by
      intro h
      exact hc (by simp [h])
    have h2 : k ∉ m.map Prod.fst := by
      intro h
      exact hc (by simp [h])
    rw [List.cons_append]
    simp only [alist_lookup, if_neg h1]
    exact ih h2

/-- Looking up the key just assigned by `dict_insert` returns the new
value. -/

theorem lookup_dict_insert (m : List (Str × Vec)) (k : Str) (v : Vec) :
    alist_lookup k (dict_insert m k v) = some v := by
  rw [dict_insert]
  by_cases hc : k ∈ m.map Prod.fst
  · rw [if_pos hc]
    exact lookup_map_overwrite m k v hc
  · rw [if_neg hc]
    exact lookup_append_new m k v hc

/-! ## Token lemmas for the keyword scorer -/

/-- Every word produced by the accumulator splitter is an infix of the
accumulated prefix plus the remaining input. -/

theorem pyWordsAux_isInfix :
    ∀ (rest cur : Str), ∀ w ∈ pyWordsAux cur rest, w <:+: (cur.reverse ++ rest) := by
  intro rest
  induction rest with
  | nil =>
    intro cur w hw
    simp only [pyWordsAux] at hw
    by_cases hcur : cur = []
    · rw [if_pos hcur] at hw
      simp at hw
    · rw [if_neg hcur] at hw
      rw [List.mem_singleton.mp hw, List.append_nil]
  | cons c rest ih =>
    intro cur w hw
    simp only [pyWordsAux] at hw
    by_cases hc : c.isWhitespace
    · rw [if_pos hc] at hw
      by_cases hcur : cur = []
      · rw [if_pos hcur] at hw
        subst hcur
        simpa using List.infix_cons (by simpa using ih [] w hw)
      · rw [if_neg hcur] at hw
        rcases List.mem_cons.mp hw with h | h
        · subst h
          exact (List.prefix_append _ _).isInfix
        · have h2 : w <:+: rest := by simpa using ih [] w h
          exact (List.infix_cons h2).trans (List.suffix_append _ _).isInfix
    · rw [if_neg hc] at hw
      have h2 := ih (c :: cur) w hw
      rw [List.reverse_cons, List.append_assoc] at h2
      simpa using h2

/-- Every token of `pyWords s` is a substring (infix) of `s`. -/

theorem pyWords_isInfix (s : Str) : ∀ w ∈ pyWords s, w <:+: s := by
  intro w hw
  simpa using pyWordsAux_isInfix s [] w hw

/-! ## Sectionizer lemmas -/

/-- The parse loop over lines none of which starts (after stripping) with
`'#'` only accumulates content. -/

theorem parseGo_no_header (fp : Str) (lines : List Str) :
    ∀ (i : Nat) (st : ParseState),
      (∀ l ∈ lines, ¬ (strOf "#" <+: pyStrip l)) →
      parseGo fp i lines st =
        { st with section_content := st.section_content ++ lines } := by
  induction lines with
  | nil =>
    intro i st _
    simp [parseGo]
  | cons l rest ih =>
    intro i st h
    have hl : ¬ (strOf "#" <+: pyStrip l) := h l (List.mem_cons_self _ _)
    rw [parseGo]
    rw [show parseStep fp i l st = { st with section_content := st.section_content ++ [l] }
      from by simp only [parseStep]; rw [if_neg hl]]
    rw [ih (i + 1) _ (fun x hx => h x (List.mem_cons_of_mem _ hx))]
    simp

/-- C9: a document with no markdown header line parses to exactly one
section, titled "Main Content", spanning line 0 through the last line. -/

theorem C9_no_headers (content fp : Str)
    (h : ∀ l ∈ splitLines content, ¬ (strOf "#" <+: pyStrip l)) :
    parse_markdown_sections content fp = [create_default_section content fp] ∧
    (create_default_section content fp).title = strOf "Main Content" ∧
    (create_default_section content fp).line_start = 0 ∧
    (create_default_section content fp).line_end = (splitLines content).length - 1 := by
  refine ⟨?_, rfl, rfl, rfl⟩
  unfold parse_markdown_sections parse_sections_from_lines
  rw [parseGo_no_header fp (splitLines content) 0 initParseState h]
  simp [initParseState, pyTruthy]

/-- Witness for C9 at the concrete header-free document "hello\nworld". -/

theorem C9_no_headers_witness :
    parse_markdown_sections (strOf "hello\nworld") (strOf "f") =
      [create_default_section (strOf "hello\nworld") (strOf "f")] ∧
    (create_default_section (strOf "hello\nworld") (strOf "f")).title = strOf "Main Content" ∧
    (create_default_section (strOf "hello\nworld") (strOf "f")).line_start = 0 ∧
    (create_default_section (strOf "hello\nworld") (strOf "f")).line_end =
      (splitLines (strOf "hello\nworld")).length - 1 :=
  C9_no_headers (strOf "hello\nworld") (strOf "f") (by decide)

/-- C8: `get_diff_stats` counts, per hunk, the new-side lines absent from
that hunk's old side (content membership, not positional), mirrored for
deletions, with `changes` the number of hunks; concretely, a hunk with
`new_lines = ["x"]` and `old_lines = ["b"]` reports 1/1/1. -/

theorem C8_diff_stats (hunks : List DiffHunk) :
    (get_diff_stats hunks).additions =
      (hunks.map (fun h => h.new_lines.countP (fun l => decide (l ∉ h.old_lines)))).sum ∧
    (get_diff_stats hunks).deletions =
      (hunks.map (fun h => h.old_lines.countP (fun l => decide (l ∉ h.new_lines)))).sum ∧
    (get_diff_stats hunks).changes = hunks.length ∧
    get_diff_stats [⟨1, 1, 1, 1, [strOf "b"], [strOf "x"]⟩] = ⟨1, 1, 1⟩ := by
  refine ⟨?_, ?_, rfl, by decide⟩
  · simp [get_diff_stats, List.countP_eq_length_filter]
  · simp [get_diff_stats, List.countP_eq_length_filter]

/-- C3 (amended): the pickle store round-trips embeddings exactly, while the
Redis store persists the unit-normalized vector, so a load returns the
normalization of the original, not necessarily the original itself. -/

theorem C3_round_trip_amended :
    (∀ embeddings : List (Str × Vec),
      load_embeddings (save_embeddings embeddings) = embeddings) ∧
    (∀ (nrm : Vec → ℚ) (store : List (Str × Vec)) (sid : Str) (v : Vec),
      get_embedding (store_embedding nrm store sid v) sid =
        some (redis_normalize nrm v)) := by
  constructor
  · intro e
    simp [load_embeddings, save_embeddings]
  · intro nrm store sid v
    unfold get_embedding store_embedding
    exact lookup_dict_insert _ _ _

/-- C3 counterexample: storing `[3, 4]` through the Redis backing and
loading it back yields the normalized `[3/5, 4/5]`, which differs from the
original (`np.linalg.norm [3, 4] = 5 = ratNorm [3, 4]`). -/

theorem C3_redis_counterexample :
    get_embedding (store_embedding ratNorm [] (strOf "s") [3, 4]) (strOf "s") =
      some [3/5, 4/5] ∧ ([3/5, 4/5] : Vec) ≠ [3, 4] := by
  constructor
  · unfold get_embedding store_embedding
    rw [lookup_dict_insert]
    rw [redis_normalize, if_pos (by rw [ratNorm_three_four]; norm_num)]
    rw [ratNorm_three_four]
    norm_num
  · intro h
    rw [List.cons_eq_cons] at h
    exact absurd h.1 (by norm_num)

/-- C4 failing run: with batch size 1, the first batch stores a vector and
the second fails, so the run returns early with the new vector in the
embeddings dict but the matrix dirty flag still `false` — the stored vector
is never folded into the dense matrix. -/

theorem C4_dirty_flag_not_set :
    (generate_section_embeddings c4oracle c4state 1).embeddings =
      [(strOf "id1", [1])] ∧
    (generate_section_embeddings c4oracle c4state 1).matrix_dirty = false := by
  decide

/-- C6: when the query embedding resolves to absent — no client configured,
or the provider call fails (raises) — `search_sections` returns exactly the
keyword fallback result. -/

theorem C6_embed_failure_falls_back (nrm : Vec → ℚ) (oracle : Str → Option Vec)
    (st : DPState) (query : Str) (limit : Nat)
    (hmiss : alist_lookup query st.query_embedding_cache = none)
    (hfail : st.client_available = false ∨ oracle (query.take 1000) = none) :
    search_sections nrm oracle st query limit =
      keyword_search_sections st.sections query limit := by
  have hq : (get_cached_query_embedding oracle st query).1 = none := by
    unfold get_cached_query_embedding embed_text
    rw [hmiss]
    rcases hfail with h | h
    · rw [h]
      simp
    · cases hc : st.client_available
      · simp
      · simp [h]
  unfold search_sections
  by_cases he : st.embeddings = []
  · rw [if_pos he]
  · rw [if_neg he]
    simp [hq]

/-- Witness for C6: concrete state with no client; search equals keyword
fallback. -/

theorem C6_embed_failure_falls_back_witness :
    search_sections ratNorm (fun _ => none) c6state (strOf "q") 3 =
      keyword_search_sections c6state.sections (strOf "q") 3 :=
  C6_embed_failure_falls_back ratNorm (fun _ => none) c6state (strOf "q") 3
    rfl (Or.inl rfl)

/-! ## C7: keyword scoring, title match versus body match -/

/-- Sum of a constant-valued map. -/

theorem sum_map_eq_const {α : Type} (l : List α) (f : α → ℕ) (c : ℕ)
    (h : ∀ x ∈ l, f x = c) : (l.map f).sum = c * l.length := by
  induction l with
  | nil => simp
  | cons a l ih =>
    simp only [List.map_cons, List.sum_cons, List.length_cons]
    rw [h a (List.mem_cons_self _ _), ih (fun x hx => h x (List.mem_cons_of_mem _ hx))]
    ring

/-- Lower bound for the sum of a pointwise bounded map. -/

theorem le_sum_map {α : Type} (l : List α) (f : α → ℕ) (c : ℕ)
    (h : ∀ x ∈ l, c ≤ f x) : c * l.length ≤ (l.map f).sum := by
  induction l with
  | nil => simp
  | cons a l ih =>
    simp only [List.map_cons, List.sum_cons, List.length_cons]
    have h1 := h a (List.mem_cons_self _ _)
    have h2 := ih (fun x hx => h x (List.mem_cons_of_mem _ hx))
    calc c * (l.length + 1) = c + c * l.length := by ring
    _ ≤ f a + (l.map f).sum := Nat.add_le_add h1 h2

/-- C7 (amended): a section whose (lowercased) title contains the query
outscores a section containing the query only in its body, provided the
body-only section draws no other points — no query token in its title and
no domain-bonus term in its body (such extra points can otherwise reverse
the comparison). -/

theorem C7_title_beats_body_amended (query : Str) (A B : DocumentSection)
    (hA : pyLower query <:+: pyLower A.title)
    (hB : pyLower query <:+: pyLower B.content)
    (hBt : ¬ pyLower query <:+: pyLower B.title)
    (hTok : ∀ t ∈ pyWords (pyLower query), ¬ t <:+: pyLower B.title)
    (hDom : ∀ p ∈ agents_terms, ¬ p.1 <:+: pyLower B.content) :
    keyword_score query B < keyword_score query A := by
  simp only [keyword_score]
  have hBsum : ((pyWords (pyLower query)).map (fun term =>
      (if term <:+: pyLower B.title then 10 else 0) +
      (if term <:+: pyLower B.content then 1 else 0))).sum =
      1 * (pyWords (pyLower query)).length := by
    apply sum_map_eq_const
    intro t ht
    rw [if_neg (hTok t ht), if_pos ((pyWords_isInfix _ t ht).trans hB)]
  have hBdom : (agents_terms.map
      (fun p => if p.1 <:+: pyLower B.content then p.2 else 0)).sum =
      0 * agents_terms.length := by
    apply sum_map_eq_const
    intro p hp
    rw [if_neg (hDom p hp)]
  have hAsum : 10 * (pyWords (pyLower query)).length ≤
      ((pyWords (pyLower query)).map (fun term =>
        (if term <:+: pyLower A.title then 10 else 0) +
        (if term <:+: pyLower A.content then 1 else 0))).sum := by
    apply le_sum_map
    intro t ht
    rw [if_pos ((pyWords_isInfix _ t ht).trans hA)]
    exact Nat.le_add_right _ _
  rw [hBsum, hBdom, if_neg hBt, if_pos hB, if_pos hA]
  omega

/-- C7 counterexample: for query "aa bb", the title section scores 40 while
a section containing the query only in its body scores 42 — the claimed
strict inequality fails on this pair. -/

theorem C7_counterexample :
    pyLower (strOf "aa bb") <:+: pyLower c7A.title ∧
    pyLower (strOf "aa bb") <:+: pyLower c7B.content ∧
    ¬ pyLower (strOf "aa bb") <:+: pyLower c7B.title ∧
    keyword_score (strOf "aa bb") c7A = 40 ∧
    keyword_score (strOf "aa bb") c7B = 42 ∧
    ¬ keyword_score (strOf "aa bb") c7B < keyword_score (strOf "aa bb") c7A := by
  decide

/-- Witness for the amended C7 on concrete sections. -/

theorem C7_title_beats_body_amended_witness :
    keyword_score (strOf "cc") c7wB < keyword_score (strOf "cc") c7wA :=
  C7_title_beats_body_amended (strOf "cc") c7wA c7wB
    (by decide) (by decide) (by decide) (by decide) (by decide)

/-! ## Semantic-ranker lemmas (argsort, selection) -/

/-- The `argsortDesc` lists indices in weakly descending key order. -/

theorem argsortDesc_pairwise (keys : List ℚ) :
    List.Pairwise (fun i j => keys.getD j 0 ≤ keys.getD i 0) (argsortDesc keys) := by
  haveI ht : IsTotal ℕ (fun i j => keys.getD i 0 ≤ keys.getD j 0) :=
    ⟨fun a b => le_total _ _⟩
  haveI htr : IsTrans ℕ (fun i j => keys.getD i 0 ≤ keys.getD j 0) :=
    ⟨fun a b c hab hbc => le_trans hab hbc⟩
  have hs := List.sorted_insertionSort (fun i j => keys.getD i 0 ≤ keys.getD j 0)
    (List.range keys.length)
  exact List.pairwise_reverse.mpr hs

/-- Every index produced by `argsortDesc` is in range. -/

theorem argsortDesc_mem_lt (keys : List ℚ) :
    ∀ i ∈ argsortDesc keys, i < keys.length := by
  intro i hi
  rw [argsortDesc, List.mem_reverse] at hi
  have := (List.perm_insertionSort
    (fun i j => keys.getD i 0 ≤ keys.getD j 0) (List.range keys.length)).mem_iff.mp hi
  exact List.mem_range.mp this

/-- The `argsortDesc` produces distinct indices. -/

theorem argsortDesc_nodup (keys : List ℚ) : (argsortDesc keys).Nodup := by
  rw [argsortDesc, List.nodup_reverse]
  exact ((List.perm_insertionSort _ _).nodup_iff).mpr (List.nodup_range _)

/-- What a successful `fast_sel` guarantees. -/

theorem fast_sel_eq_some (sections : List DocumentSection) (sims : List ℚ)
    (ids : List Str) (idx : Nat) (p : Nat × DocumentSection)
    (h : fast_sel sections sims ids idx = some p) :
    p.1 = idx ∧ 1/10 < sims.getD idx 0 ∧
      sections_get sections (ids.getD idx []) = some p.2 := by
  rw [fast_sel] at h
  by_cases hc : 1/10 < sims.getD idx 0
  · rw [if_pos hc] at h
    cases hg : sections_get sections (ids.getD idx []) with
    | none =>
      rw [hg] at h
      exact absurd h (by simp)
    | some s =>
      rw [hg] at h
      injection h with h
      subst h
      exact ⟨rfl, hc, by simpa using hg⟩
  · rw [if_neg hc] at h
    exact absurd h (by simp)

/-- Transfer a pairwise relation along a `filterMap` whose results carry
their source index in the first component. -/

theorem pairwise_filterMap_fst {R : Nat → Nat → Prop}
    (f : Nat → Option (Nat × DocumentSection))
    (hf : ∀ i p, f i = some p → p.1 = i) :
    ∀ l : List Nat, l.Pairwise R →
      (l.filterMap f).Pairwise (fun p q => R p.1 q.1) := by
  intro l
  induction l with
  | nil =>
    intro _
    simp
  | cons a l ih =>
    intro hp
    rcases List.pairwise_cons.mp hp with ⟨ha, hl⟩
    rw [List.filterMap_cons]
    cases hfa : f a with
    | none => exact ih hl
    | some p =>
      refine List.pairwise_cons.mpr ⟨?_, ih hl⟩
      intro q hq
      rcases List.mem_filterMap.mp hq with ⟨b, hb, hfb⟩
      rw [hf a p hfa, hf b q hfb]
      exact ha b hb

/-- The first components of an index-carrying `filterMap` form a sublist of
the input index list. -/

theorem filterMap_fst_sublist (f : Nat → Option (Nat × DocumentSection))
    (hf : ∀ i p, f i = some p → p.1 = i) :
    ∀ l : List Nat, ((l.filterMap f).map Prod.fst).Sublist l := by
  intro l
  induction l with
  | nil => simp
  | cons a l ih =>
    rw [List.filterMap_cons]
    cases hfa : f a with
    | none => exact List.Sublist.cons a ih
    | some p =>
      rw [List.map_cons, hf a p hfa]
      exact List.Sublist.cons₂ a ih

/-- Everything `fast_pairs` selects passed the similarity threshold, came
from the top indices, and was found in the store under its carried id. -/

theorem fast_pairs_sound (sections : List DocumentSection) (rows : List Vec)
    (ids : List Str) (qn : Vec) (limit : Nat) :
    ∀ p ∈ fast_pairs sections rows ids qn limit,
      1/10 < (simsOf rows qn).getD p.1 0 ∧
      p.1 ∈ (argsortDesc (simsOf rows qn)).take limit ∧
      sections_get sections (ids.getD p.1 []) = some p.2 := by
  intro p hp
  rw [fast_pairs] at hp
  rcases List.mem_filterMap.mp hp with ⟨idx, hidx, heq⟩
  obtain ⟨h1, h2, h3⟩ := fast_sel_eq_some _ _ _ _ _ heq
  subst h1
  exact ⟨h2, hidx, h3⟩

/-- The id of a looked-up section is the id it was looked up under. -/

theorem sections_get_id (sections : List DocumentSection) (sid : Str)
    (s : DocumentSection) (h : sections_get sections sid = some s) : s.id = sid := by
  have := List.find?_some h
  exact of_decide_eq_true this

/-- The `fast_pairs` is weakly descending in the similarity of its indices. -/

theorem fast_pairs_pairwise (sections : List DocumentSection) (rows : List Vec)
    (ids : List Str) (qn : Vec) (limit : Nat) :
    (fast_pairs sections rows ids qn limit).Pairwise
      (fun p q => (simsOf rows qn).getD q.1 0 ≤ (simsOf rows qn).getD p.1 0) := by
  rw [fast_pairs]
  exact @pairwise_filterMap_fst
    (fun i j => (simsOf rows qn).getD j 0 ≤ (simsOf rows qn).getD i 0)
    (fast_sel sections (simsOf rows qn) ids)
    (fun i p h => (fast_sel_eq_some _ _ _ _ _ h).1)
    ((argsortDesc (simsOf rows qn)).take limit)
    ((argsortDesc_pairwise _).sublist (List.take_sublist _ _))

/-- The `fast_pairs` returns at most `limit` results. -/

theorem fast_pairs_length_le (sections : List DocumentSection) (rows : List Vec)
    (ids : List Str) (qn : Vec) (limit : Nat) :
    (fast_pairs sections rows ids qn limit).length ≤ limit := by
  rw [fast_pairs]
  refine le_trans (List.length_filterMap_le _ _) ?_
  rw [List.length_take]
  exact min_le_left _ _

/-- The index components of `fast_pairs` are distinct and in range. -/

theorem fast_pairs_fst_nodup (sections : List DocumentSection) (rows : List Vec)
    (ids : List Str) (qn : Vec) (limit : Nat) :
    ((fast_pairs sections rows ids qn limit).map Prod.fst).Nodup ∧
    (∀ p ∈ fast_pairs sections rows ids qn limit, p.1 < rows.length) := by
  constructor
  · have hsub := filterMap_fst_sublist (fast_sel sections (simsOf rows qn) ids)
      (fun i p h => (fast_sel_eq_some _ _ _ _ _ h).1)
      ((argsortDesc (simsOf rows qn)).take limit)
    rw [← fast_pairs] at hsub
    exact hsub.nodup ((argsortDesc_nodup _).sublist (List.take_sublist _ _))
  · intro p hp
    have h := (fast_pairs_sound sections rows ids qn limit p hp).2.1
    have h2 := argsortDesc_mem_lt (simsOf rows qn) p.1 (List.mem_of_mem_take h)
    rw [simsOf, List.length_map] at h2
    exact h2

/-- The `after_build` never changes the section store. -/

theorem after_build_sections (nrm : Vec → ℚ) (st : DPState) :
    (after_build nrm st).sections = st.sections := by
  rw [after_build]
  by_cases hd : st.matrix_dirty
  · rw [if_pos hd, build_embedding_matrix]
    by_cases hb : st.embeddings = [] ∨ st.matrix_dirty = false
    · rw [if_pos hb]
    · rw [if_neg hb]
  · rw [if_neg hd]

/-- The id list after a (possible) rebuild is duplicate-free, given the
dict invariants of the embeddings map and the stale id list. -/

theorem after_build_ids_nodup (nrm : Vec → ℚ) (st : DPState)
    (hE : (st.embeddings.map Prod.fst).Nodup) (hI : st.section_ids_list.Nodup) :
    (after_build nrm st).section_ids_list.Nodup := by
  rw [after_build]
  by_cases hd : st.matrix_dirty
  · rw [if_pos hd, build_embedding_matrix]
    by_cases hb : st.embeddings = [] ∨ st.matrix_dirty = false
    · rw [if_pos hb]
      exact hI
    · rw [if_neg hb]
      exact hE
  · rw [if_neg hd]
    exact hI

/-- The matrix after a (possible) rebuild has as many rows as the id list
has entries, given that invariant for the incoming state. -/

theorem after_build_matrix_len (nrm : Vec → ℚ) (st : DPState)
    (hM : ∀ rows, st.embedding_matrix = some rows →
      rows.length = st.section_ids_list.length) :
    ∀ rows, (after_build nrm st).embedding_matrix = some rows →
      rows.length = (after_build nrm st).section_ids_list.length := by
  rw [after_build]
  by_cases hd : st.matrix_dirty
  · rw [if_pos hd, build_embedding_matrix]
    by_cases hb : st.embeddings = [] ∨ st.matrix_dirty = false
    · rw [if_pos hb]
      exact hM
    · rw [if_neg hb]
      intro rows h
      injection h with h
      rw [← h]
      simp
  · rw [if_neg hd]
    exact hM

/-- The `_fast_embedding_search` returns at most `limit` sections. -/

theorem fast_search_length_le (nrm : Vec → ℚ) (st : DPState) (q : Vec)
    (limit : Nat) : (fast_embedding_search nrm st q limit).length ≤ limit := by
  simp only [fast_embedding_search]
  split
  · simp
  · split
    · simp
    · split
      · simp
      · rw [List.length_map]
        exact fast_pairs_length_le _ _ _ _ _

/-- The sections returned by `_fast_embedding_search` have pairwise
distinct ids, assuming the dict invariants of the state. -/

theorem fast_search_ids_nodup (nrm : Vec → ℚ) (st : DPState) (q : Vec)
    (limit : Nat)
    (hE : (st.embeddings.map Prod.fst).Nodup) (hI : st.section_ids_list.Nodup)
    (hM : ∀ rows, st.embedding_matrix = some rows →
      rows.length = st.section_ids_list.length) :
    ((fast_embedding_search nrm st q limit).map (fun s => s.id)).Nodup := by
  simp only [fast_embedding_search]
  split
  · simp
  · rename_i rows hm
    split
    · simp
    · split
      · simp
      · have hlen : rows.length = (after_build nrm st).section_ids_list.length :=
          after_build_matrix_len nrm st hM rows hm
        have hids : (after_build nrm st).section_ids_list.Nodup :=
          after_build_ids_nodup nrm st hE hI
        rw [List.map_map]
        have hg : ∀ p ∈ fast_pairs (after_build nrm st).sections rows
            (after_build nrm st).section_ids_list
            (q.map (fun x => x / nrm q)) limit,
            ((fun s => s.id) ∘ Prod.snd) p =
              (after_build nrm st).section_ids_list.getD p.1 [] := by
          intro p hp
          exact sections_get_id _ _ _
            (fast_pairs_sound _ _ _ _ _ p hp).2.2
        rw [List.map_congr_left hg]
        obtain ⟨hfstn, hlt⟩ := fast_pairs_fst_nodup (after_build nrm st).sections
          rows (after_build nrm st).section_ids_list
          (q.map (fun x => x / nrm q)) limit
        apply List.Nodup.map_on ?_ (List.Nodup.of_map Prod.fst hfstn)
        intro x hx y hy hxy
        have hx1 : x.1 < (after_build nrm st).section_ids_list.length :=
          hlen ▸ hlt x hx
        have hy1 : y.1 < (after_build nrm st).section_ids_list.length :=
          hlen ▸ hlt y hy
        have hxy1 : x.1 = y.1 := by
          rw [List.getD_eq_get _ _ hx1, List.getD_eq_get _ _ hy1] at hxy
          exact congrArg Fin.val ((hids.get_inj_iff).mp hxy)
        exact List.inj_on_of_nodup_map hfstn hx hy hxy1

/-- C5: the semantic ranker returns empty on a zero-norm query and on an
absent matrix (no cached vectors); otherwise its results are exactly the
sections selected by `fast_pairs` over the rebuilt state — every selection
passed the strict 0.1 similarity threshold, selections are ordered by
weakly descending similarity, and at most `limit` sections are returned. -/

theorem C5_fast_embedding_search (nrm : Vec → ℚ) (st : DPState)
    (query_emb : Vec) (limit : Nat) :
    (nrm query_emb = 0 → fast_embedding_search nrm st query_emb limit = []) ∧
    (st.embeddings = [] → st.embedding_matrix = none →
      fast_embedding_search nrm st query_emb limit = []) ∧
    (fast_embedding_search nrm st query_emb limit).length ≤ limit ∧
    (∀ (sections : List DocumentSection) (rows : List Vec) (ids : List Str)
        (qn : Vec) (lim : Nat),
      (∀ p ∈ fast_pairs sections rows ids qn lim,
        1/10 < (simsOf rows qn).getD p.1 0) ∧
      (fast_pairs sections rows ids qn lim).Pairwise
        (fun p q => (simsOf rows qn).getD q.1 0 ≤ (simsOf rows qn).getD p.1 0)) ∧
    (∀ rows, (after_build nrm st).embedding_matrix = some rows →
      (after_build nrm st).section_ids_list.length ≠ 0 → nrm query_emb ≠ 0 →
      fast_embedding_search nrm st query_emb limit =
        (fast_pairs (after_build nrm st).sections rows
          (after_build nrm st).section_ids_list
          (query_emb.map (fun x => x / nrm query_emb)) limit).map Prod.snd) := by
  refine ⟨?_, ?_, fast_search_length_le nrm st query_emb limit, ?_, ?_⟩
  · intro h0
    simp only [fast_embedding_search]
    split
    · rfl
    · split
      · rfl
      · rfl
  · intro he hm0
    have hb : (after_build nrm st).embedding_matrix = none := by
      rw [after_build]
      by_cases hd : st.matrix_dirty
      · rw [if_pos hd, build_embedding_matrix, if_pos (Or.inl he)]
        exact hm0
      · rw [if_neg hd]
        exact hm0
    simp only [fast_embedding_search]
    split
    · rfl
    · rename_i rows hm
      rw [hb] at hm
      exact absurd hm (by simp)
  · intro sections rows ids qn lim
    exact ⟨fun p hp => (fast_pairs_sound sections rows ids qn lim p hp).1,
      fast_pairs_pairwise sections rows ids qn lim⟩
  · intro rows hm h1 h2
    simp only [fast_embedding_search]
    split
    · rename_i hm'
      rw [hm'] at hm
      exact absurd hm (by simp)
    · rename_i rows' hm'
      rw [hm'] at hm
      injection hm with hm
      subst hm
      rw [if_neg h1, if_neg h2]

/-- Witness for C5 at the zero vector: `ratNorm [0] = 0`, so the search
returns the empty list. -/

theorem C5_fast_embedding_search_witness :
    fast_embedding_search ratNorm c6state [0] 5 = [] :=
  (C5_fast_embedding_search ratNorm c6state [0] 5).1 ratNorm_zero_vec

/-! ## Keyword-search and top-up lemmas for the search composition -/

/-- A kept scored pair carries the section it came from. -/

theorem keyword_sel_eq_some (q : Str) (s : DocumentSection)
    (p : DocumentSection × Nat) (h : keyword_sel q s = some p) : p.1 = s := by
  rw [keyword_sel] at h
  by_cases hc : 0 < keyword_score q s
  · rw [if_pos hc] at h
    injection h with h
    rw [← h]
  · rw [if_neg hc] at h
    exact absurd h (by simp)

/-- The sections kept by the scoring loop form a sublist of the store. -/

theorem keyword_fst_sublist (q : Str) :
    ∀ sections : List DocumentSection,
      ((sections.filterMap (keyword_sel q)).map Prod.fst).Sublist sections := by
  intro sections
  induction sections with
  | nil => simp
  | cons s l ih =>
    rw [List.filterMap_cons]
    cases hfa : keyword_sel q s with
    | none => exact List.Sublist.cons s ih
    | some p =>
      rw [List.map_cons, keyword_sel_eq_some q s p hfa]
      exact List.Sublist.cons₂ s ih

/-- The keyword search returns at most `limit` sections. -/

theorem keyword_length_le (sections : List DocumentSection) (q : Str)
    (limit : Nat) : (keyword_search_sections sections q limit).length ≤ limit := by
  simp only [keyword_search_sections]
  rw [List.length_map, List.length_take]
  exact min_le_left _ _

/-- The keyword search returns sections with pairwise distinct ids when the
store has distinct ids. -/

theorem keyword_ids_nodup (sections : List DocumentSection) (q : Str)
    (limit : Nat) (hS : (sections.map (fun s => s.id)).Nodup) :
    ((keyword_search_sections sections q limit).map (fun s => s.id)).Nodup := by
  simp only [keyword_search_sections]
  rw [List.map_map]
  have h1 : ((List.insertionSort (fun a b => b.2 ≤ a.2)
      (sections.filterMap (keyword_sel q))).map
      ((fun s => s.id) ∘ Prod.fst)).Nodup := by
    apply (((List.perm_insertionSort (fun a b => b.2 ≤ a.2)
      (sections.filterMap (keyword_sel q))).map
      ((fun s => s.id) ∘ Prod.fst)).nodup_iff).mpr
    rw [← List.map_map]
    exact ((keyword_fst_sublist q sections).map _).nodup hS
  exact ((List.take_sublist limit _).map _).nodup h1

/-- Every keyword result was drawn from the store. -/

theorem keyword_mem_store (sections : List DocumentSection) (q : Str)
    (limit : Nat) : ∀ s ∈ keyword_search_sections sections q limit, s ∈ sections := by
  intro s hs
  simp only [keyword_search_sections] at hs
  rcases List.mem_map.mp hs with ⟨p, hp, hps⟩
  have h1 : p ∈ List.insertionSort (fun a b => b.2 ≤ a.2)
      (sections.filterMap (keyword_sel q)) := List.mem_of_mem_take hp
  have h2 : p ∈ sections.filterMap (keyword_sel q) :=
    (List.perm_insertionSort _ _).mem_iff.mp h1
  have h3 : p.1 ∈ (sections.filterMap (keyword_sel q)).map Prod.fst :=
    List.mem_map_of_mem _ h2
  rw [hps] at h3
  exact (keyword_fst_sublist q sections).subset h3

/-- The top-up loop appends (some of) the keyword results whose ids are not
already present. -/

theorem top_up_decomp :
    ∀ (ks results : List DocumentSection) (ex : List Str) (limit : Nat),
      ∃ e, top_up results ex ks limit = results ++ e ∧ e.Sublist ks ∧
        ∀ k ∈ e, k.id ∉ ex := by
  intro ks
  induction ks with
  | nil =>
    intro results ex limit
    exact ⟨[], by simp [top_up], List.nil_sublist _, by simp⟩
  | cons k rest ih =>
    intro results ex limit
    by_cases hmem : k.id ∈ ex
    · obtain ⟨e, he, hs, hni⟩ := ih results ex limit
      exact ⟨e, by rw [top_up, if_pos hmem]; exact he,
        List.Sublist.cons k hs, hni⟩
    · by_cases hlim : limit ≤ (results ++ [k]).length
      · refine ⟨[k], ?_, List.Sublist.cons₂ k (List.nil_sublist rest), ?_⟩
        · rw [top_up, if_neg hmem, if_pos hlim]
        · intro x hx
          rw [List.mem_singleton.mp hx]
          exact hmem
      · obtain ⟨e, he, hs, hni⟩ := ih (results ++ [k]) ex limit
        refine ⟨k :: e, ?_, List.Sublist.cons₂ k hs, ?_⟩
        · rw [top_up, if_neg hmem, if_neg hlim, he, List.append_assoc]
          rfl
        · intro x hx
          rcases List.mem_cons.mp hx with h | h
          · rw [h]
            exact hmem
          · exact hni x h

/-- When all keyword results are fresh and they fit below the limit, the
top-up loop appends all of them. -/

theorem top_up_all :
    ∀ (ks results : List DocumentSection) (ex : List Str) (limit : Nat),
      (∀ k ∈ ks, k.id ∉ ex) → results.length + ks.length ≤ limit →
      top_up results ex ks limit = results ++ ks := by
  intro ks
  induction ks with
  | nil =>
    intro results ex limit _ _
    simp [top_up]
  | cons k rest ih =>
    intro results ex limit hfresh hfit
    have hmem : k.id ∉ ex := hfresh k (List.mem_cons_self _ _)
    rw [top_up, if_neg hmem]
    by_cases hlim : limit ≤ (results ++ [k]).length
    · have hrest : rest = [] := by
        apply List.length_eq_zero.mp
        rw [List.length_append, List.length_singleton] at hlim
        simp only [List.length_cons] at hfit
        omega
      subst hrest
      rw [if_pos hlim]
    · rw [if_neg hlim]
      rw [ih (results ++ [k]) ex limit
        (fun x hx => hfresh x (List.mem_cons_of_mem _ hx)) ?_]
      · rw [List.append_assoc]
        rfl
      · rw [List.length_append, List.length_singleton]
        simp only [List.length_cons] at hfit
        omega

/-- C2 (amended): `search_sections` never errors (it is total), returns at
most `limit` sections with pairwise distinct ids (under the dict
invariants of the state), and on the semantic path returns the semantic
results as an unaltered prefix, topped up only with keyword results.  The
keyword call requests just `limit - len(semantic)` sections, so duplicates
can leave the final list short of `limit`; the list reaches exactly
`limit` when that keyword call returns `limit - len(semantic)` sections
all of whose ids are fresh. -/

theorem C2_search_composition (nrm : Vec → ℚ) (oracle : Str → Option Vec)
    (st : DPState) (query : Str) (limit : Nat)
    (hS : (st.sections.map (fun s => s.id)).Nodup)
    (hE : (st.embeddings.map Prod.fst).Nodup)
    (hI : st.section_ids_list.Nodup)
    (hM : ∀ rows, st.embedding_matrix = some rows →
      rows.length = st.section_ids_list.length) :
    (search_sections nrm oracle st query limit).length ≤ limit ∧
    ((search_sections nrm oracle st query limit).map (fun s => s.id)).Nodup ∧
    (∀ query_emb, (get_cached_query_embedding oracle st query).1 = some query_emb →
      st.embeddings ≠ [] →
      ((search_sections nrm oracle st query limit).take
          (fast_embedding_search nrm st query_emb limit).length =
        fast_embedding_search nrm st query_emb limit) ∧
      (∀ s ∈ search_sections nrm oracle st query limit,
        s ∈ fast_embedding_search nrm st query_emb limit ∨
        s ∈ keyword_search_sections st.sections query
            (limit - (fast_embedding_search nrm st query_emb limit).length)) ∧
      ((∀ k ∈ keyword_search_sections st.sections query
            (limit - (fast_embedding_search nrm st query_emb limit).length),
          k.id ∉ (fast_embedding_search nrm st query_emb limit).map
            (fun s => s.id)) →
        (keyword_search_sections st.sections query
            (limit - (fast_embedding_search nrm st query_emb limit).length)).length =
          limit - (fast_embedding_search nrm st query_emb limit).length →
        (search_sections nrm oracle st query limit).length = limit)) := by
  by_cases he : st.embeddings = []
  · simp only [search_sections]
    rw [if_pos he]
    refine ⟨keyword_length_le _ _ _, keyword_ids_nodup _ _ _ hS, ?_⟩
    intro qe hqe hne
    exact absurd he hne
  · simp only [search_sections]
    rw [if_neg he]
    split
    · rename_i heq
      refine ⟨keyword_length_le _ _ _, keyword_ids_nodup _ _ _ hS, ?_⟩
      intro qe hqe hne
      rw [heq] at hqe
      exact absurd hqe (by simp)
    · rename_i query_emb heq
      by_cases hlt : (fast_embedding_search nrm st query_emb limit).length < limit
      · rw [if_pos hlt]
        obtain ⟨e, hdec, hsub, hnotin⟩ := top_up_decomp
          (keyword_search_sections st.sections query
            (limit - (fast_embedding_search nrm st query_emb limit).length))
          (fast_embedding_search nrm st query_emb limit)
          ((fast_embedding_search nrm st query_emb limit).map (fun s => s.id))
          limit
        have hbig : (((fast_embedding_search nrm st query_emb limit) ++ e).map
            (fun s => s.id)).Nodup := by
          rw [List.map_append, List.nodup_append]
          refine ⟨fast_search_ids_nodup nrm st query_emb limit hE hI hM,
            (hsub.map _).nodup (keyword_ids_nodup _ _ _ hS), ?_⟩
          intro a ha hae
          rcases List.mem_map.mp hae with ⟨k, hk, hkid⟩
          exact hnotin k hk (hkid ▸ ha)
        refine ⟨?_, ?_, ?_⟩
        · rw [hdec, List.length_take]
          exact min_le_left _ _
        · rw [hdec]
          exact ((List.take_sublist _ _).map _).nodup hbig
        · intro qe hqe hne
          rw [heq] at hqe
          injection hqe with hqe
          subst hqe
          refine ⟨?_, ?_, ?_⟩
          · rw [hdec, List.take_take, min_eq_left (le_of_lt hlt), List.take_left]
          · intro s hs
            rw [hdec] at hs
            rcases List.mem_append.mp (List.mem_of_mem_take hs) with h | h
            · exact Or.inl h
            · exact Or.inr (hsub.subset h)
          · intro hdisj hlen
            have hall := top_up_all
              (keyword_search_sections st.sections query
                (limit - (fast_embedding_search nrm st query_emb limit).length))
              (fast_embedding_search nrm st query_emb limit)
              ((fast_embedding_search nrm st query_emb limit).map (fun s => s.id))
              limit hdisj (by rw [hlen]; omega)
            rw [hall, List.length_take, List.length_append, hlen]
            have hsum : (fast_embedding_search nrm st query_emb limit).length +
                (limit - (fast_embedding_search nrm st query_emb limit).length) =
                limit := by omega
            rw [hsum, min_self]
      · rw [if_neg hlt]
        have hsemlen : (fast_embedding_search nrm st query_emb limit).length ≤
            limit := fast_search_length_le nrm st query_emb limit
        have heq2 : (fast_embedding_search nrm st query_emb limit).length =
            limit := le_antisymm hsemlen (not_lt.mp hlt)
        rw [List.take_of_length_le hsemlen]
        refine ⟨hsemlen, fast_search_ids_nodup nrm st query_emb limit hE hI hM, ?_⟩
        intro qe hqe hne
        rw [heq] at hqe
        injection hqe with hqe
        subst hqe
        refine ⟨List.take_length _, fun s hs => Or.inl hs, fun _ _ => heq2⟩

/-- Reduction of `search_sections` on the semantic path. -/

theorem search_sections_some (nrm : Vec → ℚ) (oracle : Str → Option Vec)
    (st : DPState) (query : Str) (limit : Nat) (qe : Vec)
    (he : ¬ st.embeddings = [])
    (hq : (get_cached_query_embedding oracle st query).1 = some qe) :
    search_sections nrm oracle st query limit =
      (if (fast_embedding_search nrm st qe limit).length < limit then
        top_up (fast_embedding_search nrm st qe limit)
          ((fast_embedding_search nrm st qe limit).map (fun s => s.id))
          (keyword_search_sections st.sections query
            (limit - (fast_embedding_search nrm st qe limit).length)) limit
      else fast_embedding_search nrm st qe limit).take limit := by
  simp only [search_sections]
  rw [if_neg he]
  split
  · rename_i heq
    rw [heq] at hq
    exact absurd hq (by simp)
  · rename_i qe' heq
    rw [heq] at hq
    injection hq with hq
    subst hq
    rfl

/-- The query embedding resolves to `[1]` on `c2state`. -/

theorem c2_qe :
    (get_cached_query_embedding c2oracle c2state (strOf "alpha")).1 = some [1] := by
  decide

/-- Building the matrix on `c2state` yields `c2built` (`ratNorm [1] = 1`,
so the row normalizes to itself). -/

theorem c2_after_build : after_build ratNorm c2state = c2built := by
  have hmax : max (ratNorm [1]) ((1 : ℚ) / 100000000) = 1 := by
    rw [ratNorm_one]
    exact max_eq_left (by norm_num)
  rw [after_build, if_pos (show c2state.matrix_dirty = true from rfl),
    build_embedding_matrix, if_neg (by decide)]
  show DPState.mk _ _ _ _ _ _ _ = _
  norm_num [c2state, c2built, alist_lookup, hmax]

/-- The semantic search on `c2state` with query embedding `[1]` and limit 2
returns exactly `[c2A]`. -/

theorem c2_fast : fast_embedding_search ratNorm c2state [1] 2 = [c2A] := by
  have hsims : simsOf [[1]] [1] = [1] := by
    norm_num [simsOf, dotProduct]
  have hargs : argsortDesc [1] = [0] := by
    simp [argsortDesc, List.insertionSort, List.orderedInsert]
  have hqn : ([1] : Vec).map (fun x => x / ratNorm [1]) = [1] := by
    rw [ratNorm_one]
    norm_num
  simp only [fast_embedding_search, c2_after_build]
  show (match c2built.embedding_matrix with
    | none => []
    | some rows =>
      if c2built.section_ids_list.length = 0 then []
      else if ratNorm [1] = 0 then []
      else
        (fast_pairs c2built.sections rows c2built.section_ids_list
          (([1] : Vec).map (fun x => x / ratNorm [1])) 2).map Prod.snd) = [c2A]
  show (if c2built.section_ids_list.length = 0 then []
    else if ratNorm [1] = 0 then []
    else
      (fast_pairs c2built.sections [[1]] c2built.section_ids_list
        (([1] : Vec).map (fun x => x / ratNorm [1])) 2).map Prod.snd) = [c2A]
  rw [if_neg (by decide), if_neg (by rw [ratNorm_one]; norm_num), hqn]
  rw [fast_pairs]
  rw [show simsOf [[1]] [1] = [1] from hsims, hargs]
  have hsel : fast_sel c2built.sections [1] c2built.section_ids_list 0 =
      some (0, c2A) := by
    rw [fast_sel, if_pos (by norm_num)]
    decide
  rw [show ([0] : List Nat).take 2 = [0] from rfl, List.filterMap_cons, hsel]
  decide

/-- C2 counterexample: with limit 2 the semantic path returns `[c2A]`, the
keyword search holds two distinct further candidates (`A` then `B`), yet
`search_sections` returns only one section — the keyword top-up was asked
for `2 - 1 = 1` section and it duplicated `A`. -/

theorem C2_counterexample :
    search_sections ratNorm c2oracle c2state (strOf "alpha") 2 = [c2A] ∧
    (keyword_search_sections c2state.sections (strOf "alpha") 2).map
      (fun s => s.id) = [strOf "A", strOf "B"] ∧
    (search_sections ratNorm c2oracle c2state (strOf "alpha") 2).length = 1 := by
  have h1 : search_sections ratNorm c2oracle c2state (strOf "alpha") 2 = [c2A] := by
    rw [search_sections_some ratNorm c2oracle c2state (strOf "alpha") 2 [1]
      (by decide) c2_qe, c2_fast]
    decide
  exact ⟨h1, by decide, by rw [h1]; rfl⟩

/-- Witness for the amended C2 at a concrete state, query and limit. -/

theorem C2_search_composition_witness :
    (search_sections ratNorm c2oracle c2state (strOf "alpha") 2).length ≤ 2 ∧
    ((search_sections ratNorm c2oracle c2state (strOf "alpha") 2).map
      (fun s => s.id)).Nodup ∧
    (∀ query_emb,
      (get_cached_query_embedding c2oracle c2state (strOf "alpha")).1 =
        some query_emb →
      c2state.embeddings ≠ [] →
      ((search_sections ratNorm c2oracle c2state (strOf "alpha") 2).take
          (fast_embedding_search ratNorm c2state query_emb 2).length =
        fast_embedding_search ratNorm c2state query_emb 2) ∧
      (∀ s ∈ search_sections ratNorm c2oracle c2state (strOf "alpha") 2,
        s ∈ fast_embedding_search ratNorm c2state query_emb 2 ∨
        s ∈ keyword_search_sections c2state.sections (strOf "alpha")
            (2 - (fast_embedding_search ratNorm c2state query_emb 2).length)) ∧
      ((∀ k ∈ keyword_search_sections c2state.sections (strOf "alpha")
            (2 - (fast_embedding_search ratNorm c2state query_emb 2).length),
          k.id ∉ (fast_embedding_search ratNorm c2state query_emb 2).map
            (fun s => s.id)) →
        (keyword_search_sections c2state.sections (strOf "alpha")
            (2 - (fast_embedding_search ratNorm c2state query_emb 2).length)).length =
          2 - (fast_embedding_search ratNorm c2state query_emb 2).length →
        (search_sections ratNorm c2oracle c2state (strOf "alpha") 2).length = 2)) :=
  C2_search_composition ratNorm c2oracle c2state (strOf "alpha") 2
    (by decide) (by decide) (by decide)
    (by intro rows h; simp [c2state] at h)

/-- C10: for every pair of contents and context width, grouping the
difflib stream into hunks succeeds (no `ValueError`) whenever every `@@`
line of the stream parses — which the spec guarantees for
`difflib.unified_diff`, shorthand counts included; stream lines before the
first `@@` header are silently dropped; and an empty stream (what difflib
emits for equal inputs) yields the empty hunk list. -/

theorem C10_diff_generation (udiff : List Str → List Str → Nat → List Str)
    (original suggested : Str) (context_lines : Nat)
    (hok : unified_diff_stream_ok
      (udiff (py_splitlines original) (py_splitlines suggested) context_lines))
    (heq : py_splitlines original = py_splitlines suggested →
      udiff (py_splitlines original) (py_splitlines suggested) context_lines = []) :
    (generate_diff_hunks udiff original suggested context_lines).isSome ∧
    (original = suggested →
      generate_diff_hunks udiff original suggested context_lines = some []) ∧
    (∀ junk rest : List Str, (∀ l ∈ junk, ¬ (strOf "@@" <+: l)) →
      process_diff_lines (junk ++ rest) = process_diff_lines rest) := by
  refine ⟨?_, ?_, ?_⟩
  · rw [generate_diff_hunks, process_diff_lines]
    have main : ∀ (lines : List Str) (hunks : List DiffHunk)
        (current : Option DiffHunk),
        (∀ l ∈ lines, (strOf "@@" <+: l) → (parse_hunk_header l).isSome) →
        (process_go lines hunks current).isSome := by
      intro lines
      induction lines with
      | nil =>
        intro hunks current _
        simp [process_go]
      | cons l rest ih =>
        intro hunks current h
        simp only [process_go]
        by_cases hat : strOf "@@" <+: l
        · rw [if_pos hat]
          have := h l (List.mem_cons_self _ _) hat
          cases hp : parse_hunk_header l with
          | none =>
            rw [hp] at this
            exact absurd this (by simp)
          | some hk =>
            exact ih _ _ (fun x hx => h x (List.mem_cons_of_mem _ hx))
        · rw [if_neg hat]
          cases current with
          | none => exact ih _ _ (fun x hx => h x (List.mem_cons_of_mem _ hx))
          | some hk => exact ih _ _ (fun x hx => h x (List.mem_cons_of_mem _ hx))
    exact main _ [] none hok
  · intro hss
    subst hss
    rw [generate_diff_hunks, heq rfl]
    rfl
  · intro junk rest hjunk
    rw [process_diff_lines, process_diff_lines]
    induction junk with
    | nil => rfl
    | cons l js ih =>
      rw [List.cons_append]
      simp only [process_go]
      rw [if_neg (hjunk l (List.mem_cons_self _ _))]
      exact ih (fun x hx => hjunk x (List.mem_cons_of_mem _ hx))

/-- Witness for C10 on a concrete stream with a shorthand hunk header. -/

theorem C10_diff_generation_witness :
    (generate_diff_hunks c10udiff (strOf "a") (strOf "b") 3).isSome ∧
    (strOf "a" = strOf "b" →
      generate_diff_hunks c10udiff (strOf "a") (strOf "b") 3 = some []) ∧
    (∀ junk rest : List Str, (∀ l ∈ junk, ¬ (strOf "@@" <+: l)) →
      process_diff_lines (junk ++ rest) = process_diff_lines rest) :=
  C10_diff_generation c10udiff (strOf "a") (strOf "b") 3
    (by unfold unified_diff_stream_ok; decide) (by decide)

/-! ## C1: partition lemmas for the sectionizer -/

/-- Dropping as many elements as the `takeWhile` prefix is `dropWhile`. -/

theorem drop_takeWhile_length (p : Char → Bool) :
    ∀ l : Str, l.drop (l.takeWhile p).length = l.dropWhile p := by
  intro l
  induction l with
  | nil => rfl
  | cons a l ih =>
    rw [List.takeWhile_cons, List.dropWhile_cons]
    by_cases hp : p a
    · rw [if_pos hp, if_pos hp, List.length_cons, List.drop_succ_cons]
      exact ih
    · rw [if_neg hp, if_neg hp]
      rfl

/-- The head surviving a `dropWhile` fails the predicate. -/

theorem dropWhile_head_not (p : Char → Bool) :
    ∀ (l : Str) (c : Char) (t : Str), l.dropWhile p = c :: t → p c = false := by
  intro l
  induction l with
  | nil =>
    intro c t h
    simp at h
  | cons a l ih =>
    intro c t h
    rw [List.dropWhile_cons] at h
    by_cases hp : p a
    · rw [if_pos hp] at h
      exact ih c t h
    · rw [if_neg hp] at h
      injection h with h1 _
      subst h1
      exact eq_false_of_ne_true hp

/-- A stripped string never ends in whitespace. -/

theorem pyStrip_last_not_ws (l xs : Str) (c : Char)
    (h : pyStrip l = xs ++ [c]) : c.isWhitespace = false := by
  rw [pyStrip] at h
  have h2 : List.dropWhile Char.isWhitespace
      ((l.dropWhile Char.isWhitespace).reverse) = c :: xs.reverse := by
    have := congrArg List.reverse h
    rw [List.reverse_reverse, List.reverse_append] at this
    simpa using this
  exact dropWhile_head_not _ _ _ _ h2

/-- A string whose strip is empty is all whitespace. -/

theorem all_ws_of_pyStrip_eq_nil (r : Str) (h : pyStrip r = []) :
    ∀ c ∈ r, c.isWhitespace := by
  rw [pyStrip] at h
  have h1 : List.dropWhile Char.isWhitespace
      ((r.dropWhile Char.isWhitespace).reverse) = [] := by
    have := congrArg List.reverse h
    rwa [List.reverse_reverse] at this
  have h2 : ∀ c ∈ (r.dropWhile Char.isWhitespace).reverse, c.isWhitespace :=
    List.dropWhile_eq_nil_iff.mp h1
  intro c hc
  rcases List.mem_append.mp
      ((List.takeWhile_append_dropWhile Char.isWhitespace r) ▸ hc) with hm | hm
  · exact List.mem_takeWhile_imp hm
  · exact h2 c (List.mem_reverse.mpr hm)

/-- A header-looking stripped line that is not the bare `"#"` matches the
header regex, with a nonempty title. -/

theorem headerMatch_of_trigger (l : Str)
    (htrig : strOf "#" <+: pyStrip l) (hne : pyStrip l ≠ strOf "#") :
    ∃ lvl title, headerMatch (pyStrip l) = some (lvl, title) ∧ title ≠ [] := by
  have hk : 1 ≤ ((pyStrip l).takeWhile (· == '#')).length := by
    obtain ⟨t, ht⟩ := htrig
    rw [← ht]
    show 1 ≤ (List.takeWhile (fun x => x == '#') ('#' :: t)).length
    rw [List.takeWhile_cons]
    simp
  rw [headerMatch]
  rw [if_neg (by omega)]
  by_cases hr : (pyStrip l).drop ((pyStrip l).takeWhile (· == '#')).length = []
  · rw [if_pos hr]
    have hlen : (pyStrip l).length = ((pyStrip l).takeWhile (· == '#')).length := by
      have := List.take_append_drop ((pyStrip l).takeWhile (· == '#')).length (pyStrip l)
      rw [hr, List.append_nil] at this
      have h2 := congrArg List.length this
      rw [List.length_take] at h2
      have h3 : ((pyStrip l).takeWhile (· == '#')).length ≤ (pyStrip l).length :=
        List.IsPrefix.length_le ( List.takeWhile_prefix _)
      omega
    by_cases h2 : 2 ≤ ((pyStrip l).takeWhile (· == '#')).length
    · rw [if_pos h2]
      exact ⟨_, _, rfl, by simp⟩
    · exfalso
      have hk1 : ((pyStrip l).takeWhile (· == '#')).length = 1 := by omega
      obtain ⟨t, ht⟩ := htrig
      have : t = [] := by
        have hlt := congrArg List.length ht
        rw [List.length_append, show (strOf "#").length = 1 from rfl] at hlt
        have : t.length = 0 := by omega
        exact List.length_eq_zero.mp this
      subst this
      rw [List.append_nil] at ht
      exact hne ht.symm
  · rw [if_neg hr]
    refine ⟨_, _, rfl, ?_⟩
    intro hstrip
    have hws := all_ws_of_pyStrip_eq_nil _ hstrip
    set r := (pyStrip l).drop ((pyStrip l).takeWhile (· == '#')).length with hrdef
    have hc : r.getLast hr ∈ r := List.getLast_mem hr
    have hwsc : (r.getLast hr).isWhitespace := hws _ hc
    have hsplit : pyStrip l =
        ((pyStrip l).take ((pyStrip l).takeWhile (· == '#')).length ++ r.dropLast) ++
          [r.getLast hr] := by
      rw [List.append_assoc, List.dropLast_append_getLast hr, hrdef]
      exact (List.take_append_drop _ _).symm
    have := pyStrip_last_not_ws l _ _ hsplit
    rw [this] at hwsc
    exact absurd hwsc (by simp)

/-- Tiling extends by one section adjoined at the right edge. -/

theorem tiles_snoc : ∀ (secs : List DocumentSection) (lo m : Nat)
    (s : DocumentSection), tiles lo secs m → s.line_start = m → m ≤ s.line_end →
    tiles lo (secs ++ [s]) (s.line_end + 1) := by
  intro secs
  induction secs with
  | nil =>
    intro lo m s ht hs hm
    rw [tiles] at ht
    subst ht
    exact ⟨hs, hm, rfl⟩
  | cons t rest ih =>
    intro lo m s ht hs hm
    obtain ⟨h1, h2, h3⟩ := ht
    exact ⟨h1, h2, ih _ _ s h3 hs hm⟩

/-- Every section in a tiling starts at or after the left edge. -/

theorem tiles_start_ge : ∀ (secs : List DocumentSection) (lo hi : Nat),
    tiles lo secs hi → ∀ x ∈ secs, lo ≤ x.line_start := by
  intro secs
  induction secs with
  | nil =>
    intro lo hi _ x hx
    simp at hx
  | cons s rest ih =>
    intro lo hi ht x hx
    obtain ⟨h1, h2, h3⟩ := ht
    rcases List.mem_cons.mp hx with h | h
    · subst h
      omega
    · have := ih _ _ h3 x h
      omega

/-- The left edge of a tiling is at most its right edge. -/

theorem tiles_le : ∀ (secs : List DocumentSection) (lo hi : Nat),
    tiles lo secs hi → lo ≤ hi := by
  intro secs
  induction secs with
  | nil =>
    intro lo hi ht
    rw [tiles] at ht
    omega
  | cons s rest ih =>
    intro lo hi ht
    obtain ⟨h1, h2, h3⟩ := ht
    have := ih _ _ h3
    omega

/-- Inside a tiling, every line index is covered by exactly one section. -/

theorem tiles_count : ∀ (secs : List DocumentSection) (lo hi j : Nat),
    tiles lo secs hi → lo ≤ j → j < hi →
    secs.countP (fun s => decide (s.line_start ≤ j ∧ j ≤ s.line_end)) = 1 := by
  intro secs
  induction secs with
  | nil =>
    intro lo hi j ht hlo hhi
    rw [tiles] at ht
    omega
  | cons s rest ih =>
    intro lo hi j ht hlo hhi
    obtain ⟨h1, h2, h3⟩ := ht
    rw [List.countP_cons]
    by_cases hj : j ≤ s.line_end
    · have hp : decide (s.line_start ≤ j ∧ j ≤ s.line_end) = true := by
        rw [decide_eq_true_eq]
        exact ⟨by omega, hj⟩
      have hrest : rest.countP
          (fun s => decide (s.line_start ≤ j ∧ j ≤ s.line_end)) = 0 := by
        apply List.countP_eq_zero.mpr
        intro x hx hcontra
        rw [decide_eq_true_eq] at hcontra
        have := tiles_start_ge rest _ _ h3 x hx
        omega
      rw [hp, hrest]
      simp
    · have hp : decide (s.line_start ≤ j ∧ j ≤ s.line_end) = false :=
        decide_eq_false (fun h => hj h.2)
      rw [hp, ih _ _ j h3 (by omega) hhi]
      simp

/-- Below the left edge of a tiling, no section covers the index. -/

theorem tiles_count_zero : ∀ (secs : List DocumentSection) (lo hi j : Nat),
    tiles lo secs hi → j < lo →
    secs.countP (fun s => decide (s.line_start ≤ j ∧ j ≤ s.line_end)) = 0 := by
  intro secs lo hi j ht hj
  apply List.countP_eq_zero.mpr
  intro x hx hcontra
  rw [decide_eq_true_eq] at hcontra
  have := tiles_start_ge secs _ _ ht x hx
  omega

/-- A non-header line only accumulates content. -/

theorem parseStep_nonheader (fp l : Str) (i : Nat) (st : ParseState)
    (htrig : ¬ (strOf "#" <+: pyStrip l)) :
    parseStep fp i l st = { st with section_content := st.section_content ++ [l] } := by
  simp only [parseStep]
  rw [if_neg htrig]

/-- A matching header line with no open section only opens the new
section. -/

theorem parseStep_header_first (fp l : Str) (i : Nat) (st : ParseState)
    (lvl : Nat) (title : Str)
    (hcur : st.current_section = none)
    (htrig : strOf "#" <+: pyStrip l)
    (hm : headerMatch (pyStrip l) = some (lvl, title)) :
    parseStep fp i l st =
      { sections := st.sections, current_section := some title,
        section_content := [], line_start := i, header_level := lvl } := by
  simp only [parseStep]
  rw [if_pos htrig, hm, hcur]
  simp [pyTruthy]

/-- A matching header line with an open (truthy) section closes it at the
previous line and opens the new one. -/

theorem parseStep_header_open (fp l : Str) (i : Nat) (st : ParseState)
    (lvl : Nat) (title t : Str)
    (hcur : st.current_section = some t) (htne : t ≠ [])
    (htrig : strOf "#" <+: pyStrip l)
    (hm : headerMatch (pyStrip l) = some (lvl, title)) :
    parseStep fp i l st =
      { sections := st.sections ++ [create_section t (joinLines st.section_content)
          fp st.line_start (i - 1) st.header_level],
        current_section := some title, section_content := [],
        line_start := i, header_level := lvl } := by
  simp only [parseStep]
  rw [if_pos htrig, hm, hcur]
  simp [pyTruthy, htne]

/-- One loop iteration preserves the invariant, for any line that is not a
bare `"#"`. -/

theorem parseStep_inv (fp l : Str) (i i0 : Nat) (st : ParseState)
    (hgood : pyStrip l ≠ strOf "#")
    (hinv : ParseInv i0 i st) : ParseInv i0 (i + 1) (parseStep fp i l st) := by
  obtain ⟨t, hcur, htne, hge, hlt, htiles⟩ := hinv
  by_cases htrig : strOf "#" <+: pyStrip l
  · obtain ⟨lvl, title, hm, htit⟩ := headerMatch_of_trigger l htrig hgood
    rw [parseStep_header_open fp l i st lvl title t hcur htne htrig hm]
    refine ⟨title, rfl, htit, ?_, ?_, ?_⟩
    · show i0 ≤ i
      omega
    · show i < i + 1
      omega
    · show tiles i0 (st.sections ++ [create_section t (joinLines st.section_content)
        fp st.line_start (i - 1) st.header_level]) i
      have hsnoc := tiles_snoc st.sections i0 st.line_start
        (create_section t (joinLines st.section_content) fp st.line_start (i - 1)
          st.header_level) htiles rfl ?_
      · have hend : (create_section t (joinLines st.section_content) fp
            st.line_start (i - 1) st.header_level).line_end + 1 = i := by
          show (i - 1) + 1 = i
          omega
        rwa [hend] at hsnoc
      · show st.line_start ≤ i - 1
        omega
  · rw [parseStep_nonheader fp l i st htrig]
    refine ⟨t, hcur, htne, hge, ?_, htiles⟩
    show st.line_start < i + 1
    omega

/-- The loop preserves the invariant over any run of good lines. -/

theorem parseGo_inv (fp : Str) :
    ∀ (lines : List Str) (i i0 : Nat) (st : ParseState),
      (∀ l ∈ lines, pyStrip l ≠ strOf "#") →
      ParseInv i0 i st →
      ParseInv i0 (i + lines.length) (parseGo fp i lines st) := by
  intro lines
  induction lines with
  | nil =>
    intro i i0 st _ hinv
    simpa [parseGo] using hinv
  | cons l rest ih =>
    intro i i0 st hgood hinv
    simp only [parseGo, List.length_cons]
    have h1 := parseStep_inv fp l i i0 st (hgood l (List.mem_cons_self _ _)) hinv
    have h2 := ih (i + 1) i0 _ (fun x hx => hgood x (List.mem_cons_of_mem _ hx)) h1
    rwa [show i + (rest.length + 1) = i + 1 + rest.length from by omega]

/-- Splitting the loop over an append. -/

theorem parseGo_append (fp : Str) :
    ∀ (xs ys : List Str) (i : Nat) (st : ParseState),
      parseGo fp i (xs ++ ys) st = parseGo fp (i + xs.length) ys (parseGo fp i xs st) := by
  intro xs
  induction xs with
  | nil =>
    intro ys i st
    simp [parseGo]
  | cons x xs ih =>
    intro ys i st
    simp only [parseGo, List.cons_append, List.length_cons]
    show parseGo fp (i + 1) (xs ++ ys) (parseStep fp i x st) =
      parseGo fp (i + (xs.length + 1)) ys (parseGo fp (i + 1) xs (parseStep fp i x st))
    rw [ih]
    congr 1
    omega

/-- C1 (amended): in a document whose lines contain a header line (and no
line that strips to the bare `"#"`, which the code treats as a header
boundary without a match), the parsed sections' line ranges tile the
document from the first header line to the last line — every such line
index lies in exactly one section's range — while every line before the
first header belongs to no section. -/

theorem C1_partition_amended (content fp : Str) (i0 : Nat)
    (hi0 : i0 < (splitLines content).length)
    (htrig : strOf "#" <+: pyStrip ((splitLines content).getD i0 []))
    (hpre : ∀ l ∈ (splitLines content).take i0, ¬ (strOf "#" <+: pyStrip l))
    (hgood : ∀ l ∈ splitLines content, pyStrip l ≠ strOf "#") :
    (∀ j, i0 ≤ j → j < (splitLines content).length →
      (parse_markdown_sections content fp).countP
        (fun s => decide (s.line_start ≤ j ∧ j ≤ s.line_end)) = 1) ∧
    (∀ j, j < i0 →
      (parse_markdown_sections content fp).countP
        (fun s => decide (s.line_start ≤ j ∧ j ≤ s.line_end)) = 0) := by
  have hsplit : splitLines content = (splitLines content).take i0 ++
      ((splitLines content).getD i0 [] :: (splitLines content).drop (i0 + 1)) := by
    conv_lhs => rw [← List.take_append_drop i0 (splitLines content)]
    rw [List.drop_eq_get_cons hi0, List.getD_eq_get _ _ hi0]
  have hlen_take : ((splitLines content).take i0).length = i0 := by
    rw [List.length_take]
    omega
  have hmem0 : (splitLines content).getD i0 [] ∈ splitLines content := by
    rw [List.getD_eq_get _ _ hi0]
    exact List.get_mem _ _ _
  obtain ⟨lvl, title, hm, htit⟩ :=
    headerMatch_of_trigger ((splitLines content).getD i0 []) htrig (hgood _ hmem0)
  have hφ1 : parseGo fp 0 ((splitLines content).take i0) initParseState =
      { initParseState with section_content :=
          initParseState.section_content ++ (splitLines content).take i0 } :=
    parseGo_no_header fp _ 0 _ hpre
  have hinv1 : ParseInv i0 (i0 + 1)
      (parseStep fp i0 ((splitLines content).getD i0 [])
        (parseGo fp 0 ((splitLines content).take i0) initParseState)) := by
    rw [hφ1, parseStep_header_first fp _ i0 _ lvl title rfl htrig hm]
    refine ⟨title, rfl, htit, ?_, ?_, ?_⟩
    · show i0 ≤ i0
      omega
    · show i0 < i0 + 1
      omega
    · show tiles i0 ([] : List DocumentSection) i0
      exact rfl
  have hgood_post : ∀ l ∈ (splitLines content).drop (i0 + 1),
      pyStrip l ≠ strOf "#" := fun l hl => hgood l (List.mem_of_mem_drop hl)
  have hinv2 := parseGo_inv fp _ (i0 + 1) i0 _ hgood_post hinv1
  have hfull : ParseInv i0 (splitLines content).length
      (parseGo fp 0 (splitLines content) initParseState) := by
    have e1 : parseGo fp 0 (splitLines content) initParseState =
        parseGo fp (i0 + 1) ((splitLines content).drop (i0 + 1))
          (parseStep fp i0 ((splitLines content).getD i0 [])
            (parseGo fp 0 ((splitLines content).take i0) initParseState)) := by
      conv_lhs => rw [hsplit]
      rw [parseGo_append fp, hlen_take, Nat.zero_add]
      simp only [parseGo]
    rw [e1]
    have hlen2 : i0 + 1 + ((splitLines content).drop (i0 + 1)).length =
        (splitLines content).length := by
      rw [List.length_drop]
      omega
    rwa [hlen2] at hinv2
  obtain ⟨t, hcur, htne, hge, hlt, htiles⟩ := hfull
  have hfin : parse_sections_from_lines (splitLines content) fp =
      (parseGo fp 0 (splitLines content) initParseState).sections ++
        [create_section t
          (joinLines (parseGo fp 0 (splitLines content) initParseState).section_content)
          fp (parseGo fp 0 (splitLines content) initParseState).line_start
          ((splitLines content).length - 1)
          (parseGo fp 0 (splitLines content) initParseState).header_level] := by
    simp only [parse_sections_from_lines]
    rw [hcur]
    simp [pyTruthy, htne]
  have htilesF : tiles i0
      ((parseGo fp 0 (splitLines content) initParseState).sections ++
        [create_section t
          (joinLines (parseGo fp 0 (splitLines content) initParseState).section_content)
          fp (parseGo fp 0 (splitLines content) initParseState).line_start
          ((splitLines content).length - 1)
          (parseGo fp 0 (splitLines content) initParseState).header_level])
      (splitLines content).length := by
    have hs := tiles_snoc _ i0 _
      (create_section t
        (joinLines (parseGo fp 0 (splitLines content) initParseState).section_content)
        fp (parseGo fp 0 (splitLines content) initParseState).line_start
        ((splitLines content).length - 1)
        (parseGo fp 0 (splitLines content) initParseState).header_level)
      htiles rfl (show (parseGo fp 0 (splitLines content) initParseState).line_start ≤
        (splitLines content).length - 1 from by omega)
    rwa [show (create_section t
        (joinLines (parseGo fp 0 (splitLines content) initParseState).section_content)
        fp (parseGo fp 0 (splitLines content) initParseState).line_start
        ((splitLines content).length - 1)
        (parseGo fp 0 (splitLines content) initParseState).header_level).line_end + 1 =
      (splitLines content).length from by
        show ((splitLines content).length - 1) + 1 = (splitLines content).length
        omega] at hs
  have hne : parse_sections_from_lines (splitLines content) fp ≠ [] := by
    rw [hfin]
    simp
  have hpm : parse_markdown_sections content fp =
      parse_sections_from_lines (splitLines content) fp := by
    simp only [parse_markdown_sections]
    rw [if_neg hne]
  constructor
  · intro j hj1 hj2
    rw [hpm, hfin]
    exact tiles_count _ _ _ _ htilesF hj1 hj2
  · intro j hj
    rw [hpm, hfin]
    exact tiles_count_zero _ _ _ _ htilesF hj

/-- C1 counterexample: the document "a\n# T\nb" contains a header line, yet
line 0 (the preamble before the first header) belongs to no parsed section
— the claimed partition of all lines fails. -/

theorem C1_counterexample :
    (∃ l ∈ splitLines (strOf "a\n# T\nb"), strOf "#" <+: pyStrip l) ∧
    (parse_markdown_sections (strOf "a\n# T\nb") (strOf "f")).countP
      (fun s => decide (s.line_start ≤ 0 ∧ 0 ≤ s.line_end)) = 0 := by
  decide

/-- Witness for the amended C1 on a concrete document whose first line is
a header. -/

theorem C1_partition_amended_witness :
    (∀ j, 0 ≤ j → j < (splitLines (strOf "# T\nbody")).length →
      (parse_markdown_sections (strOf "# T\nbody") (strOf "f")).countP
        (fun s => decide (s.line_start ≤ j ∧ j ≤ s.line_end)) = 1) ∧
    (∀ j, j < 0 →
      (parse_markdown_sections (strOf "# T\nbody") (strOf "f")).countP
        (fun s => decide (s.line_start ≤ j ∧ j ≤ s.line_end)) = 0) :=
  C1_partition_amended (strOf "# T\nbody") (strOf "f") 0
    (by decide) (by decide) (by decide) (by decide)
